import Mathlib

/-!
A shallow embedding of the core of DUPer.py (duplicate-file finder):
the SQLite `files` table becomes a list of records, the SQL statements of
`mark_duplicates` become list transformations, the scoring and keeper
selection of `process_duplicates` become pure functions, and the
filesystem becomes an association list from path to file content, with an
environment oracle deciding which moves the operating system permits.

Conventions:
* SQL `filepath LIKE target || '%'` is modelled as a string-prefix test on
  the character data (SQLite's ASCII case folding of LIKE is not modelled;
  target roots are taken wildcard-free, as the program always passes a
  directory path).
* The REAL column `size_mb` (a Python float, `size_bytes / 1024**2`) is
  modelled as a rational number; the map from byte counts to floats is
  injective in the relevant range, so equality and order comparisons agree.
* `os.path.basename(__file__)` is the constant script name.
-/

/-- One row of the `files` table of DUPer.py. -/
structure FileRecord where
  filepath : String
  filename : String
  md5 : String
  simplified_filename : String
  size_mb : Rat
  created_time : String
  modified_time : String
  ext : String
  is_potential_duplicate : Bool
  deriving Repr, DecidableEq

/-- The value of `os.path.basename(__file__)` in the running script. -/
def scriptName : String := "DUPer.py"

/-- `filepath LIKE root || '%'`: the root is a string-prefix of the path. -/
def underRoot (root p : String) : Bool :=
  root.data.isPrefixOf p.data

/-- Effect of the reset UPDATE on one row. -/
def resetElem (root : String) (r : FileRecord) : FileRecord :=
  if underRoot root r.filepath then { r with is_potential_duplicate := false } else r

/-- `UPDATE files SET is_potential_duplicate = 0 WHERE filepath LIKE root || '%'`. -/
def resetPass (root : String) (db : List FileRecord) : List FileRecord :=
  db.map (resetElem root)

/-- The joined pair condition of the filename subquery of `mark_duplicates`:
`T1.filename = T2.filename AND T1.filepath != T2.filepath AND
 T1.filename != scriptName AND T1.filepath LIKE root% AND T2.filepath LIKE root%`. -/
def fnameWitness (root : String) (t1 t2 : FileRecord) : Bool :=
  (t1.filename == t2.filename) && (t1.filepath != t2.filepath) &&
  (t1.filename != scriptName) && underRoot root t1.filepath && underRoot root t2.filepath

/-- Row `t1` is selected by the filename subquery (some `T2` joins with it). -/
def fnameSel (root : String) (db : List FileRecord) (t1 : FileRecord) : Bool :=
  db.any (fnameWitness root t1)

/-- Row `r` is updated by the filename UPDATE: its `filepath` is in the
set of filepaths selected by the subquery. -/
def fnameFlagged (root : String) (db : List FileRecord) (r : FileRecord) : Bool :=
  db.any (fun t1 => (t1.filepath == r.filepath) && fnameSel root db t1)

/-- Effect of the filename UPDATE on one row. -/
def fnameElem (root : String) (db : List FileRecord) (r : FileRecord) : FileRecord :=
  if fnameFlagged root db r then { r with is_potential_duplicate := true } else r

/-- The filename UPDATE statement of `mark_duplicates`. -/
def fnamePass (root : String) (db : List FileRecord) : List FileRecord :=
  db.map (fnameElem root db)

/-- The joined pair condition of the MD5 subquery of `mark_duplicates`:
`T1.md5 = T2.md5 AND T1.filepath != T2.filepath AND T1.md5 != '' AND
 T1.filepath LIKE root% AND T2.filepath LIKE root%`. -/
def md5Witness (root : String) (t1 t2 : FileRecord) : Bool :=
  (t1.md5 == t2.md5) && (t1.filepath != t2.filepath) &&
  (t1.md5 != "") && underRoot root t1.filepath && underRoot root t2.filepath

/-- Row `t1` is selected by the MD5 subquery. -/
def md5Sel (root : String) (db : List FileRecord) (t1 : FileRecord) : Bool :=
  db.any (md5Witness root t1)

/-- Row `r` is updated by the MD5 UPDATE. -/
def md5Flagged (root : String) (db : List FileRecord) (r : FileRecord) : Bool :=
  db.any (fun t1 => (t1.filepath == r.filepath) && md5Sel root db t1)

/-- Effect of the MD5 UPDATE on one row. -/
def md5Elem (root : String) (db : List FileRecord) (r : FileRecord) : FileRecord :=
  if md5Flagged root db r then { r with is_potential_duplicate := true } else r

/-- The MD5 UPDATE statement of `mark_duplicates`. -/
def md5Pass (root : String) (db : List FileRecord) : List FileRecord :=
  db.map (md5Elem root db)

/-- `mark_duplicates` (DUPer.py lines 438-475): reset the flag under the
root, then run the filename UPDATE, then the MD5 UPDATE. -/
def mark_duplicates (root : String) (db : List FileRecord) : List FileRecord :=
  md5Pass root (fnamePass root (resetPass root db))

/-! ### Resolution Engine: grouping, scoring, keeper selection
(`process_duplicates`, DUPer.py lines 546-626) -/

/-- One row of the per-hash member query
`SELECT filepath, simplified_filename, size_mb FROM files WHERE md5=? AND filepath LIKE ?`. -/
structure GroupRow where
  filepath : String
  simplified_filename : String
  size_mb : Rat
  deriving Repr, DecidableEq

/-- Projection of a `files` row onto the member-query columns. -/
def toGroupRow (r : FileRecord) : GroupRow :=
  ⟨r.filepath, r.simplified_filename, r.size_mb⟩

/-- The md5 values of the rows satisfying the WHERE clause of the hash
query of `process_duplicates`:
`is_potential_duplicate = 1 AND md5 != '' AND filepath LIKE root%`. -/
def flaggedHashes (root : String) (db : List FileRecord) : List String :=
  (db.filter (fun r =>
    r.is_potential_duplicate && (r.md5 != "") && underRoot root r.filepath)).map
      (fun r => r.md5)

/-- The hash list of `process_duplicates`:
`SELECT md5 FROM files WHERE is_potential_duplicate = 1 AND md5 != '' AND
 filepath LIKE ? GROUP BY md5 HAVING COUNT(*) > 1`
(distinct hashes in first-occurrence order, keeping those with at least two
qualifying rows). -/
def duplicateHashes (root : String) (db : List FileRecord) : List String :=
  ((flaggedHashes root db).foldl (fun acc h => if h ∈ acc then acc else acc ++ [h]) []).filter
    (fun h => decide (2 ≤ ((flaggedHashes root db).filter (fun x => x == h)).length))

/-- The member query for one hash (run against the live table inside the loop). -/
def membersOf (root : String) (db : List FileRecord) (h : String) : List GroupRow :=
  (db.filter (fun r => (r.md5 == h) && underRoot root r.filepath)).map toGroupRow

/-- `min_size = min(data[2] for data in duplicate_files_data)`
(the `if duplicate_files_data else 0` default is only reachable on an empty
group, which the `len > 1` guard rules out). -/
def minSizeMB : List GroupRow → Rat
  | [] => 0
  | r :: rs => rs.foldl (fun a x => min a x.size_mb) r.size_mb

/-- `shortest_name_len = min(len(data[1]) ...)` (empty-group default unreachable). -/
def shortestNameLen : List GroupRow → Nat
  | [] => 0
  | r :: rs => rs.foldl (fun a x => min a x.simplified_filename.length)
      r.simplified_filename.length

/-- Lexicographic strict order on character lists by code point, the
comparison Python's `<` performs on strings. -/
def charListLtb : List Char → List Char → Bool
  | _, [] => false
  | [], _ :: _ => true
  | a :: as, b :: bs =>
    if a.toNat < b.toNat then true
    else if b.toNat < a.toNat then false
    else charListLtb as bs

/-- Python's `<` on strings. -/
def strLtb (a b : String) : Bool := charListLtb a.data b.data

/-- The running-minimum fold of Python's `min` over simplified names:
replace the current best only when the new item is strictly smaller. -/
def alphaFold (l : List GroupRow) (a : String) : String :=
  l.foldl (fun a x =>
    if strLtb x.simplified_filename a then x.simplified_filename else a) a

/-- `first_alphabetically = min(data[1] ...)` (empty-group default is `""`). -/
def firstAlpha : List GroupRow → String
  | [] => ""
  | r :: rs => alphaFold rs r.simplified_filename

/-- The score assigned to one member inside the loop body:
start at 0, add 3 for shortest simplified name, 2 for alphabetically first
simplified name, 1 for minimal positive size. -/
def rowScore (g : List GroupRow) (r : GroupRow) : Nat :=
  let s1 := if r.simplified_filename.length = shortestNameLen g then 0 + 3 else 0
  let s2 := if r.simplified_filename = firstAlpha g then s1 + 2 else s1
  if r.size_mb = minSizeMB g ∧ 0 < minSizeMB g then s2 + 1 else s2

/-- The `scores` dict in insertion order (keyed by filepath). -/
def scoresOf (g : List GroupRow) : List (String × Nat) :=
  g.map (fun r => (r.filepath, rowScore g r))

/-- The running-maximum fold of Python's `max`: later items replace the
current best only when strictly greater, so ties keep the earlier item. -/
def bestFold (s : String × Nat) (rest : List (String × Nat)) : String × Nat :=
  rest.foldl (fun best x => if x.2 > best.2 then x else best) s

/-- `file_to_keep = max(scores, key=scores.get)`: Python's `max` scans the
keys in insertion order and keeps the first key whose value is maximal. -/
def file_to_keep (scores : List (String × Nat)) : String :=
  match scores with
  | [] => ""
  | s :: rest => (bestFold s rest).1

/-! ### Path utilities used by the Relocator -/

/-- `os.path.basename`: the part of the path after the last slash. -/
def basename (p : String) : String :=
  ⟨(p.data.reverse.takeWhile (fun c => c ≠ '/')).reverse⟩

/-- `os.path.join(dir, name)` for a relative `name` and a directory path
without a trailing slash. -/
def joinPath (d f : String) : String := d ++ "/" ++ f

/-- Index (from the left) of the last '.' of a character list, if any. -/
def lastDotIdx (cs : List Char) : Option Nat :=
  match cs.reverse.findIdx? (fun c => c = '.') with
  | none => none
  | some j => some (cs.length - 1 - j)

/-- `os.path.splitext` on a bare filename: split at the last dot, unless
every character before that dot is itself a dot (leading-dot names such as
".bashrc" keep their dots in the base). -/
def splitExt (s : String) : String × String :=
  match lastDotIdx s.data with
  | none => (s, "")
  | some i =>
    if (s.data.take i).any (fun c => c ≠ '.') then
      (⟨s.data.take i⟩, ⟨s.data.drop i⟩)
    else (s, "")

/-- Decimal digit characters of `n`, most significant first; the first
argument is fuel (`n` itself is always enough, as each step divides by 10). -/
def decChars : Nat → Nat → List Char
  | 0, _ => []
  | fuel + 1, n => if n = 0 then [] else decChars fuel (n / 10) ++ [Nat.digitChar (n % 10)]

/-- Decimal rendering of a natural number, as Python's f-string does. -/
def decRepr (n : Nat) : String :=
  if n = 0 then "0" else ⟨decChars n n⟩

/-- The candidate filename `f"{base}_{index}{ext}"`. -/
def candName (base : String) (idx : Nat) (ext : String) : String :=
  base ++ "_" ++ decRepr idx ++ ext

/-- `os.path.exists` against the set of existing paths. -/
def pathExists (fs : List String) (p : String) : Bool :=
  fs.any (fun q => q == p)

/-- The `while os.path.exists(...): index += 1` loop, with explicit fuel:
starting at index `k`, return the first index whose candidate is free. -/
def findFreeIdx (fs : List String) (d base ext : String) : Nat → Nat → Nat
  | 0, k => k
  | fuel + 1, k =>
    if pathExists fs (joinPath d (candName base k ext)) then
      findFreeIdx fs d base ext fuel (k + 1)
    else k

/-- Destination path computation of `process_duplicates` (lines 600-607):
`destination_dir/filename` if free, else the first free
`destination_dir/base_k.ext` starting from k = 1.  The fuel
`fs.length + 1` is enough for the loop to reach a free candidate. -/
def destPath (fs : List String) (d fname : String) : String :=
  if pathExists fs (joinPath d fname) then
    let pr := splitExt fname
    joinPath d (candName pr.1 (findFreeIdx fs d pr.1 pr.2 (fs.length + 1) 1) pr.2)
  else joinPath d fname

/-! ### Filesystem model, Relocator, Ledger and Restore Engine -/

/-- The filesystem as an association list from path to file content
(an opaque token standing for the bytes). -/
def FS : Type := List (String × Nat)

/-- Look a path up in the filesystem. -/
def lookupFS (p : String) : FS → Option Nat
  | [] => none
  | (q, v) :: l => if q = p then some v else lookupFS p l

/-- Remove every entry at the given path. -/
def removeKey (k : String) : FS → FS
  | [] => []
  | (q, v) :: l => if q = k then removeKey k l else (q, v) :: removeKey k l

/-- `shutil.move(src, dst)`: fails (raises `OSError`) when the source is
missing, or when the environment oracle `env` vetoes the move (permissions,
cross-device errors, platform-dependent collision behaviour, ...).  On
success the content moves to `dst`, replacing whatever was there. -/
def fsMove (env : String → String → Bool) (fs : FS) (src dst : String) : Option FS :=
  match lookupFS src fs with
  | none => none
  | some v => if env src dst then some ((dst, v) :: removeKey dst (removeKey src fs)) else none

/-- One row of the `moved_files` table (the Ledger). -/
structure MoveRecord where
  move_id : Nat
  original_filepath : String
  moved_to_path : String
  moved_time : String
  deriving Repr, DecidableEq

/-- A fresh `move_id` for an insertion: larger than every id in the table.
(SQLite AUTOINCREMENT also never reuses ids of deleted rows; none of the
properties below depend on that distinction.) -/
def nextId (l : List MoveRecord) : Nat :=
  l.foldr (fun r acc => max r.move_id acc) 0 + 1

/-- The state threaded through the Relocator: filesystem, `files` table,
`moved_files` table, and the running count of moved files. -/
structure PState where
  fs : FS
  files : List FileRecord
  moved : List MoveRecord
  moved_count : Nat

/-- The destination path for one relocation candidate: the collision-safe
name inside the destination directory, checked against the live filesystem. -/
def relocDest (st : PState) (movedSubdir fp : String) : String :=
  destPath (st.fs.map (fun e => e.1)) movedSubdir (basename fp)

/-- The `try` body of `process_duplicates` for one non-keeper candidate
(lines 588-625, flat destination directory): compute the collision-safe
destination, attempt the move; on success insert a MoveRecord and delete
the candidate's `files` row; on `OSError` print and leave everything as is. -/
def processOne (env : String → String → Bool) (movedSubdir now : String)
    (st : PState) (fp : String) : PState :=
  match fsMove env st.fs fp (relocDest st movedSubdir fp) with
  | some fs2 =>
    { fs := fs2
      files := st.files.filter (fun r => r.filepath != fp)
      moved := st.moved ++ [⟨nextId st.moved, fp, relocDest st movedSubdir fp, now⟩]
      moved_count := st.moved_count + 1 }
  | none => st

/-- The per-hash body of `process_duplicates`: when the member query
returned more than one row, compute the keeper and process every other
member in order. -/
def processGroup (env : String → String → Bool) (movedSubdir now : String)
    (st : PState) (rows : List GroupRow) : PState :=
  if rows.length > 1 then
    rows.foldl (fun s r =>
      if r.filepath ≠ file_to_keep (scoresOf rows) then
        processOne env movedSubdir now s r.filepath
      else s) st
  else st

/-- The moving phase of `process_duplicates`: the hash list is computed
once up front; each group's members are re-queried from the live table. -/
def process_duplicates (env : String → String → Bool) (movedSubdir now root : String)
    (st : PState) : PState :=
  (duplicateHashes root st.files).foldl (fun s h =>
    processGroup env movedSubdir now s (membersOf root s.files h)) st

/-- The restore of a single chosen MoveRecord (`restore_moved_files` inner
loop): find the record with the chosen id, move the file from
`moved_to_path` back to `original_filepath`; on success delete the record.
Returns the filesystem, the ledger, and whether the restore succeeded. -/
def restoreOne (env : String → String → Bool) (fs : FS) (moved : List MoveRecord)
    (mid : Nat) : FS × List MoveRecord × Bool :=
  match moved.find? (fun m => m.move_id == mid) with
  | none => (fs, moved, false)
  | some m =>
    match fsMove env fs m.moved_to_path m.original_filepath with
    | some fs2 => (fs2, moved.filter (fun x => x.move_id != mid), true)
    | none => (fs, moved, false)

/-- The loop of `restore_all_moved_files` over the snapshot `todo`, carrying
the live ledger `led`: on success delete the record and count it restored,
on `OSError` leave the record and count an error.  Returns the filesystem,
the ledger, the restored count and the error count. -/
def restoreAllGo (env : String → String → Bool) (fs : FS) (led : List MoveRecord) :
    List MoveRecord → FS × List MoveRecord × Nat × Nat
  | [] => (fs, led, 0, 0)
  | m :: rest =>
    match fsMove env fs m.moved_to_path m.original_filepath with
    | some fs2 =>
      let r := restoreAllGo env fs2 (led.filter (fun x => x.move_id != m.move_id)) rest
      (r.1, r.2.1, r.2.2.1 + 1, r.2.2.2)
    | none =>
      let r := restoreAllGo env fs led rest
      (r.1, r.2.1, r.2.2.1, r.2.2.2 + 1)

/-- `restore_all_moved_files` (lines 631-656): snapshot the ledger, then
process every record in order. -/
def restore_all (env : String → String → Bool) (fs : FS) (moved : List MoveRecord) :
    FS × List MoveRecord × Nat × Nat :=
  restoreAllGo env fs moved moved

/-- The per-record outcome trace of `restore_all_moved_files`: each record
of the snapshot paired with whether its reverse move succeeded at its turn. -/
def restoreOutcomes (env : String → String → Bool) : FS → List MoveRecord →
    List (MoveRecord × Bool)
  | _, [] => []
  | fs, m :: rest =>
    match fsMove env fs m.moved_to_path m.original_filepath with
    | some fs2 => (m, true) :: restoreOutcomes env fs2 rest
    | none => (m, false) :: restoreOutcomes env fs rest

/-! ### Scanner-side definitions used by C8 and C10 -/

/-- One entry of a directory as `os.walk` presents it: a name together with
whether `os.path.isfile` holds for it. -/
structure DirEntry where
  name : String
  isFile : Bool
  deriving Repr, DecidableEq

/-- `num_files` of `scan_and_log_directory` / `update_database`: the count
of entries that are regular files and are not the script itself. -/
def numFiles (entries : List DirEntry) : Nat :=
  (entries.filter (fun e => e.isFile && (e.name != scriptName))).length

/-- The gate `num_files > 3 or root == TARGET_DIRECTORY and num_files > 0`
(Python precedence: `or` binds weaker than `and`). -/
def dirScanned (isTargetRoot : Bool) (entries : List DirEntry) : Bool :=
  numFiles entries > 3 || (isTargetRoot && numFiles entries > 0)

/-- `SELECT filepath FROM files WHERE filepath LIKE ?` of `update_database`. -/
def dbFilesUnder (root : String) (db : List FileRecord) : List String :=
  (db.filter (fun r => underRoot root r.filepath)).map (fun r => r.filepath)

/-- `files_to_remove = db_files - current_files` of `update_database`:
every stored path under the root that the current walk did not produce. -/
def filesToRemove (root : String) (db : List FileRecord) (current : List String) :
    List String :=
  (dbFilesUnder root db).filter (fun p => !(current.any (fun q => q == p)))

/-! ### Spec-side predicates and derived queries -/

/-- The classification criterion exactly as the specification words it:
another record under the root, at a different path, shares the exact
filename, or shares the non-empty content hash. -/
def claimDupStated (root : String) (db : List FileRecord) (r : FileRecord) : Bool :=
  (db.any (fun t2 =>
      (r.filename == t2.filename) && (r.filepath != t2.filepath) && underRoot root t2.filepath))
  || ((r.md5 != "") && db.any (fun t2 =>
      (r.md5 == t2.md5) && (r.filepath != t2.filepath) && underRoot root t2.filepath))

/-- The classification criterion as the code implements it: as stated, but
the filename criterion additionally excludes rows whose filename is the
script's own name. -/
def claimDupAmended (root : String) (db : List FileRecord) (r : FileRecord) : Bool :=
  ((r.filename != scriptName) && db.any (fun t2 =>
      (r.filename == t2.filename) && (r.filepath != t2.filepath) && underRoot root t2.filepath))
  || ((r.md5 != "") && db.any (fun t2 =>
      (r.md5 == t2.md5) && (r.filepath != t2.filepath) && underRoot root t2.filepath))

/-- The duplicate-flagged filepaths of a table, in table order. -/
def flaggedPaths (db : List FileRecord) : List String :=
  (db.filter (fun r => r.is_potential_duplicate)).map (fun r => r.filepath)

/-- The keeper chosen for each processed content-hash group of a table. -/
def keeperChoices (root : String) (db : List FileRecord) : List String :=
  (duplicateHashes root db).map (fun h => file_to_keep (scoresOf (membersOf root db h)))

/-- The raw count of regular-file entries of a directory (the script file
included), used to compare the code's gate against the claim's wording. -/
def rawFileCount (entries : List DirEntry) : Nat :=
  (entries.filter (fun e => e.isFile)).length

/-- The ids of the MoveRecords whose reverse move succeeds during a
`restore_all_moved_files` run. -/
def successIds (env : String → String → Bool) (fs : FS) (todo : List MoveRecord) :
    List Nat :=
  (restoreOutcomes env fs todo).filterMap (fun ob => if ob.2 then some ob.1.move_id else none)

/-! ### Concrete sample data for counterexamples and witnesses -/

/-- Two records whose filename is the script's own name, at different paths
under the root "/r". -/
def scriptTwinDb : List FileRecord :=
  [⟨"/r/a/DUPer.py", "DUPer.py", "", "DUPer", 0, "", "", "py", false⟩,
   ⟨"/r/b/DUPer.py", "DUPer.py", "", "DUPer", 0, "", "", "py", false⟩]

/-- Scenario B of the specification: identical content, identical size,
simplified names "a", "aa", "aaa". -/
def scenarioBGroup : List GroupRow :=
  [⟨"/t/a.bin", "a", 0⟩, ⟨"/t/aa.bin", "aa", 0⟩, ⟨"/t/aaa.bin", "aaa", 0⟩]

/-- A three-record table with one shared content hash, flagged as the
classifier leaves it. -/
def wTrioDb : List FileRecord :=
  [⟨"/r/a.bin", "a.bin", "h1", "a", 0, "", "", "bin", true⟩,
   ⟨"/r/bb.bin", "bb.bin", "h1", "bb", 0, "", "", "bin", true⟩,
   ⟨"/r/cc.bin", "cc.bin", "h1", "cc", 0, "", "", "bin", true⟩]

/-- The filesystem matching `wTrioDb`. -/
def wTrioFs : FS :=
  [("/r/a.bin", 10), ("/r/bb.bin", 10), ("/r/cc.bin", 10)]

/-- An environment that vetoes moving "/r/bb.bin" and permits all else. -/
def envBlockB : String → String → Bool := fun src _ => src != "/r/bb.bin"

/-- An environment that permits every move. -/
def envAll : String → String → Bool := fun _ _ => true

/-- An environment that vetoes every move. -/
def envNone : String → String → Bool := fun _ _ => false

/-- A two-record ledger for restore witnesses. -/
def wLedger : List MoveRecord :=
  [⟨1, "/r/a.bin", "/q/a.bin", "t1"⟩, ⟨2, "/r/b.bin", "/q/b.bin", "t2"⟩]

/-- Two distinct files both named "rom.bin", before relocation. -/
def romSt : PState :=
  ⟨[("/data/a/rom.bin", 1), ("/data/b/rom.bin", 2)], [], [], 0⟩

/-- State after relocating the first "rom.bin" into "/q". -/
def romSt1 : PState := processOne envAll "/q" "t0" romSt "/data/a/rom.bin"

/-- State after relocating the second "rom.bin" into "/q". -/
def romSt2 : PState := processOne envAll "/q" "t0" romSt1 "/data/b/rom.bin"

/-- Two records under sibling roots "/data/roms" and "/data/roms2" whose
path strings share the shorter root as a prefix. -/
def sibDb : List FileRecord :=
  [⟨"/data/roms/game.bin", "game.bin", "hg", "game", 0, "", "", "bin", false⟩,
   ⟨"/data/roms2/game.bin", "game.bin", "hg", "game", 0, "", "", "bin", true⟩]

/-- The relocation start state for the failure scenario: three files with
one shared hash, table as the classifier leaves it. -/
def failSt : PState := ⟨wTrioFs, wTrioDb, [], 0⟩

/-! ### Helper lemmas about the Classifier -/

theorem anyCongr {α : Type} {p q : α → Bool} :
    ∀ l : List α, (∀ a ∈ l, p a = q a) → l.any p = l.any q := by
  intro l h
  induction l with
  | nil => rfl
  | cons x xs ih =>
    simp only [List.any_cons]
    rw [h x (List.mem_cons_self x xs), ih (fun a ha => h a (List.mem_cons_of_mem x ha))]

theorem resetElem_filepath (root : String) (r : FileRecord) :
    (resetElem root r).filepath = r.filepath := by
  unfold resetElem; split <;> rfl

theorem resetElem_filename (root : String) (r : FileRecord) :
    (resetElem root r).filename = r.filename := by
  unfold resetElem; split <;> rfl

theorem resetElem_md5 (root : String) (r : FileRecord) :
    (resetElem root r).md5 = r.md5 := by
  unfold resetElem; split <;> rfl

theorem fnameElem_filepath (root : String) (db : List FileRecord) (r : FileRecord) :
    (fnameElem root db r).filepath = r.filepath := by
  unfold fnameElem; split <;> rfl

theorem fnameElem_filename (root : String) (db : List FileRecord) (r : FileRecord) :
    (fnameElem root db r).filename = r.filename := by
  unfold fnameElem; split <;> rfl

theorem fnameElem_md5 (root : String) (db : List FileRecord) (r : FileRecord) :
    (fnameElem root db r).md5 = r.md5 := by
  unfold fnameElem; split <;> rfl


theorem md5Elem_filepath (root : String) (db : List FileRecord) (r : FileRecord) :
    (md5Elem root db r).filepath = r.filepath := by
  unfold md5Elem; split <;> rfl

theorem md5Elem_filename (root : String) (db : List FileRecord) (r : FileRecord) :
    (md5Elem root db r).filename = r.filename := by
  unfold md5Elem; split <;> rfl

theorem md5Elem_md5 (root : String) (db : List FileRecord) (r : FileRecord) :
    (md5Elem root db r).md5 = r.md5 := by
  unfold md5Elem; split <;> rfl

theorem fnameWitness_map_right {g : FileRecord → FileRecord}
    (hfp : ∀ r, (g r).filepath = r.filepath) (hfn : ∀ r, (g r).filename = r.filename)
    (root : String) (t1 t2 : FileRecord) :
    fnameWitness root t1 (g t2) = fnameWitness root t1 t2 := by
  unfold fnameWitness; rw [hfn t2, hfp t2]

theorem fnameWitness_map_left {g : FileRecord → FileRecord}
    (hfp : ∀ r, (g r).filepath = r.filepath) (hfn : ∀ r, (g r).filename = r.filename)
    (root : String) (t1 t2 : FileRecord) :
    fnameWitness root (g t1) t2 = fnameWitness root t1 t2 := by
  unfold fnameWitness; rw [hfn t1, hfp t1]

theorem fnameSel_map {g : FileRecord → FileRecord}
    (hfp : ∀ r, (g r).filepath = r.filepath) (hfn : ∀ r, (g r).filename = r.filename)
    (root : String) (db : List FileRecord) (t1 : FileRecord) :
    fnameSel root (db.map g) t1 = fnameSel root db t1 := by
  unfold fnameSel
  rw [List.any_map]
  exact anyCongr db (fun a _ => fnameWitness_map_right hfp hfn root t1 a)

theorem fnameSel_elem {g : FileRecord → FileRecord}
    (hfp : ∀ r, (g r).filepath = r.filepath) (hfn : ∀ r, (g r).filename = r.filename)
    (root : String) (db : List FileRecord) (t1 : FileRecord) :
    fnameSel root db (g t1) = fnameSel root db t1 :=
  anyCongr db (fun a _ => fnameWitness_map_left hfp hfn root t1 a)

theorem fnameFlagged_map {g : FileRecord → FileRecord}
    (hfp : ∀ r, (g r).filepath = r.filepath) (hfn : ∀ r, (g r).filename = r.filename)
    (root : String) (db : List FileRecord) (r : FileRecord) :
    fnameFlagged root (db.map g) r = fnameFlagged root db r := by
  unfold fnameFlagged
  rw [List.any_map]
  apply anyCongr
  intro a _
  show (((g a).filepath == r.filepath) && fnameSel root (db.map g) (g a))
      = ((a.filepath == r.filepath) && fnameSel root db a)
  rw [hfp a, fnameSel_elem hfp hfn root (db.map g) a, fnameSel_map hfp hfn root db a]

theorem md5Witness_map_right {g : FileRecord → FileRecord}
    (hfp : ∀ r, (g r).filepath = r.filepath) (hmd : ∀ r, (g r).md5 = r.md5)
    (root : String) (t1 t2 : FileRecord) :
    md5Witness root t1 (g t2) = md5Witness root t1 t2 := by
  unfold md5Witness; rw [hmd t2, hfp t2]

theorem md5Witness_map_left {g : FileRecord → FileRecord}
    (hfp : ∀ r, (g r).filepath = r.filepath) (hmd : ∀ r, (g r).md5 = r.md5)
    (root : String) (t1 t2 : FileRecord) :
    md5Witness root (g t1) t2 = md5Witness root t1 t2 := by
  unfold md5Witness; rw [hmd t1, hfp t1]

theorem md5Sel_map {g : FileRecord → FileRecord}
    (hfp : ∀ r, (g r).filepath = r.filepath) (hmd : ∀ r, (g r).md5 = r.md5)
    (root : String) (db : List FileRecord) (t1 : FileRecord) :
    md5Sel root (db.map g) t1 = md5Sel root db t1 := by
  unfold md5Sel
  rw [List.any_map]
  exact anyCongr db (fun a _ => md5Witness_map_right hfp hmd root t1 a)

theorem md5Sel_elem {g : FileRecord → FileRecord}
    (hfp : ∀ r, (g r).filepath = r.filepath) (hmd : ∀ r, (g r).md5 = r.md5)
    (root : String) (db : List FileRecord) (t1 : FileRecord) :
    md5Sel root db (g t1) = md5Sel root db t1 :=
  anyCongr db (fun a _ => md5Witness_map_left hfp hmd root t1 a)

theorem md5Flagged_map {g : FileRecord → FileRecord}
    (hfp : ∀ r, (g r).filepath = r.filepath) (hmd : ∀ r, (g r).md5 = r.md5)
    (root : String) (db : List FileRecord) (r : FileRecord) :
    md5Flagged root (db.map g) r = md5Flagged root db r := by
  unfold md5Flagged
  rw [List.any_map]
  apply anyCongr
  intro a _
  show (((g a).filepath == r.filepath) && md5Sel root (db.map g) (g a))
      = ((a.filepath == r.filepath) && md5Sel root db a)
  rw [hfp a, md5Sel_elem hfp hmd root (db.map g) a, md5Sel_map hfp hmd root db a]

theorem resetElem_val (root : String) (r : FileRecord) :
    resetElem root r
      = { r with is_potential_duplicate := !underRoot root r.filepath && r.is_potential_duplicate } := by
  unfold resetElem
  rcases h : underRoot root r.filepath <;> simp [h]

theorem fnameElem_val (root : String) (db : List FileRecord) (r : FileRecord) :
    fnameElem root db r
      = { r with is_potential_duplicate := fnameFlagged root db r || r.is_potential_duplicate } := by
  unfold fnameElem
  rcases h : fnameFlagged root db r <;> simp [h]

theorem md5Elem_val (root : String) (db : List FileRecord) (r : FileRecord) :
    md5Elem root db r
      = { r with is_potential_duplicate := md5Flagged root db r || r.is_potential_duplicate } := by
  unfold md5Elem
  rcases h : md5Flagged root db r <;> simp [h]

/-- The flag value the classifier leaves on row `r`: the two UPDATE
conditions, or the old flag when the row is outside the root's scope. -/
def markFlag (root : String) (db : List FileRecord) (r : FileRecord) : Bool :=
  md5Flagged root db r
    || (fnameFlagged root db r || (!underRoot root r.filepath && r.is_potential_duplicate))

/-- Characterization of `mark_duplicates` as a single per-row map: the two
subqueries read only `filepath`, `filename` and `md5`, which no pass
changes, so each row's final flag is `markFlag` computed over the input
table. -/
theorem mark_duplicates_eq_map (root : String) (db : List FileRecord) :
    mark_duplicates root db
      = db.map (fun r => { r with is_potential_duplicate := markFlag root db r }) := by
  unfold mark_duplicates md5Pass fnamePass resetPass
  rw [List.map_map, List.map_map]
  apply List.map_congr_left
  intro r _
  have hdb0f : ∀ x : FileRecord,
      fnameFlagged root (db.map (resetElem root)) x = fnameFlagged root db x :=
    fnameFlagged_map (resetElem_filepath root) (resetElem_filename root) root db
  have hdb1m : ∀ x : FileRecord, md5Flagged root
      ((db.map (resetElem root)).map (fnameElem root (db.map (resetElem root)))) x
        = md5Flagged root db x := by
    intro x
    rw [md5Flagged_map (fnameElem_filepath root (db.map (resetElem root)))
          (fnameElem_md5 root (db.map (resetElem root))) root (db.map (resetElem root)) x,
        md5Flagged_map (resetElem_filepath root) (resetElem_md5 root) root db x]
  show md5Elem root _ (fnameElem root _ (resetElem root r))
      = { r with is_potential_duplicate := markFlag root db r }
  rw [md5Elem_val, fnameElem_val, resetElem_val, hdb1m, hdb0f]
  simp only [markFlag, fnameFlagged, md5Flagged]

theorem fnameFlagged_eq_sel (root : String) (db : List FileRecord)
    (hnd : (db.map (fun r => r.filepath)).Nodup) {r : FileRecord} (hr : r ∈ db) :
    fnameFlagged root db r = fnameSel root db r := by
  have hiff : fnameFlagged root db r = true ↔ fnameSel root db r = true := by
    constructor
    · intro hf
      rcases List.any_eq_true.mp hf with ⟨t1, ht1, hcond⟩
      rcases (Bool.and_eq_true _ _).mp hcond with ⟨hpeq, hsel⟩
      have ht1r : t1 = r := List.inj_on_of_nodup_map hnd ht1 hr (beq_iff_eq.mp hpeq)
      rw [ht1r] at hsel
      exact hsel
    · intro hs
      exact List.any_eq_true.mpr ⟨r, hr, by simp [hs]⟩
  rcases hse : fnameSel root db r <;> rcases hfl : fnameFlagged root db r <;> simp_all

theorem md5Flagged_eq_sel (root : String) (db : List FileRecord)
    (hnd : (db.map (fun r => r.filepath)).Nodup) {r : FileRecord} (hr : r ∈ db) :
    md5Flagged root db r = md5Sel root db r := by
  have hiff : md5Flagged root db r = true ↔ md5Sel root db r = true := by
    constructor
    · intro hf
      rcases List.any_eq_true.mp hf with ⟨t1, ht1, hcond⟩
      rcases (Bool.and_eq_true _ _).mp hcond with ⟨hpeq, hsel⟩
      have ht1r : t1 = r := List.inj_on_of_nodup_map hnd ht1 hr (beq_iff_eq.mp hpeq)
      rw [ht1r] at hsel
      exact hsel
    · intro hs
      exact List.any_eq_true.mpr ⟨r, hr, by simp [hs]⟩
  rcases hse : md5Sel root db r <;> rcases hfl : md5Flagged root db r <;> simp_all

theorem fnameSel_of_not_under (root : String) (db : List FileRecord) (r : FileRecord)
    (hu : underRoot root r.filepath = false) : fnameSel root db r = false := by
  unfold fnameSel fnameWitness
  apply List.any_eq_false.mpr
  intro x _
  simp [hu]

theorem md5Sel_of_not_under (root : String) (db : List FileRecord) (r : FileRecord)
    (hu : underRoot root r.filepath = false) : md5Sel root db r = false := by
  unfold md5Sel md5Witness
  apply List.any_eq_false.mpr
  intro x _
  simp [hu]

theorem fnameSel_of_under (root : String) (db : List FileRecord) (r : FileRecord)
    (hu : underRoot root r.filepath = true) :
    fnameSel root db r = ((r.filename != scriptName) && db.any (fun t2 =>
      (r.filename == t2.filename) && (r.filepath != t2.filepath)
        && underRoot root t2.filepath)) := by
  unfold fnameSel fnameWitness
  rcases hs : r.filename != scriptName
  · simp only [Bool.false_and]
    apply List.any_eq_false.mpr
    intro x _
    simp [hs]
  · simp only [Bool.true_and]
    apply anyCongr
    intro a _
    simp [hs, hu]

theorem md5Sel_of_under (root : String) (db : List FileRecord) (r : FileRecord)
    (hu : underRoot root r.filepath = true) :
    md5Sel root db r = ((r.md5 != "") && db.any (fun t2 =>
      (r.md5 == t2.md5) && (r.filepath != t2.filepath) && underRoot root t2.filepath)) := by
  unfold md5Sel md5Witness
  rcases hs : r.md5 != ""
  · simp only [Bool.false_and]
    apply List.any_eq_false.mpr
    intro x _
    simp [hs]
  · simp only [Bool.true_and]
    apply anyCongr
    intro a _
    simp [hs, hu]

/-- Claim C1 (amended): after `mark_duplicates` runs on a target root, a
FileRecord under the root is flagged iff some other record under the root
(different path) shares its exact filename — where that filename is not
the program's own script name — or shares its non-empty content hash; the
flag is fully recomputed (records outside the root are untouched), and the
empty-hash sentinel never matches. -/
theorem classifier_flag_iff (root : String) (db : List FileRecord)
    (hnd : (db.map (fun r => r.filepath)).Nodup) :
    mark_duplicates root db = db.map (fun r =>
      if underRoot root r.filepath then
        { r with is_potential_duplicate := claimDupAmended root db r } else r) := by
  rw [mark_duplicates_eq_map]
  apply List.map_congr_left
  intro r hr
  rcases hu : underRoot root r.filepath
  · have hf : fnameFlagged root db r = false := by
      rw [fnameFlagged_eq_sel root db hnd hr, fnameSel_of_not_under root db r hu]
    have hm : md5Flagged root db r = false := by
      rw [md5Flagged_eq_sel root db hnd hr, md5Sel_of_not_under root db r hu]
    simp [markFlag, hf, hm, hu]
  · have hf : fnameFlagged root db r = ((r.filename != scriptName) && db.any (fun t2 =>
        (r.filename == t2.filename) && (r.filepath != t2.filepath)
          && underRoot root t2.filepath)) := by
      rw [fnameFlagged_eq_sel root db hnd hr, fnameSel_of_under root db r hu]
    have hm : md5Flagged root db r = ((r.md5 != "") && db.any (fun t2 =>
        (r.md5 == t2.md5) && (r.filepath != t2.filepath) && underRoot root t2.filepath)) := by
      rw [md5Flagged_eq_sel root db hnd hr, md5Sel_of_under root db r hu]
    simp [markFlag, hf, hm, hu, claimDupAmended, Bool.or_comm]

/-- Claim C1, counterexample to the claim as stated: two records at
different paths under the root share the exact filename "DUPer.py" (the
script's own name); the claim as stated demands both be flagged, but
`mark_duplicates` leaves both flags false, because the filename subquery
excludes the script's name. -/
theorem classifier_script_name_counterexample :
    mark_duplicates "/r" scriptTwinDb ≠ scriptTwinDb.map (fun r =>
      if underRoot "/r" r.filepath then
        { r with is_potential_duplicate := claimDupStated "/r" scriptTwinDb r } else r)
    ∧ (∀ r ∈ scriptTwinDb, claimDupStated "/r" scriptTwinDb r = true)
    ∧ (mark_duplicates "/r" scriptTwinDb).map (fun r => r.is_potential_duplicate)
        = [false, false] := by
  refine ⟨by decide, by decide, by decide⟩

/-- Witness for `classifier_flag_iff` at a concrete table. -/
theorem classifier_flag_iff_witness :
    (scriptTwinDb.map (fun r => r.filepath)).Nodup ∧
      mark_duplicates "/r" scriptTwinDb = scriptTwinDb.map (fun r =>
        if underRoot "/r" r.filepath then
          { r with is_potential_duplicate := claimDupAmended "/r" scriptTwinDb r } else r) :=
  ⟨by decide, classifier_flag_iff "/r" scriptTwinDb (by decide)⟩

theorem fnameFlagged_congr (root : String) (db : List FileRecord)
    {r r' : FileRecord} (h : r.filepath = r'.filepath) :
    fnameFlagged root db r = fnameFlagged root db r' := by
  unfold fnameFlagged; rw [h]

theorem md5Flagged_congr (root : String) (db : List FileRecord)
    {r r' : FileRecord} (h : r.filepath = r'.filepath) :
    md5Flagged root db r = md5Flagged root db r' := by
  unfold md5Flagged; rw [h]

theorem boolIdem (a b u c : Bool) :
    (a || (b || (!u && (a || (b || (!u && c)))))) = (a || (b || (!u && c))) := by
  cases a <;> cases b <;> cases u <;> cases c <;> rfl

theorem mark_duplicates_idempotent (root : String) (db : List FileRecord) :
    mark_duplicates root (mark_duplicates root db) = mark_duplicates root db := by
  rw [mark_duplicates_eq_map root db, mark_duplicates_eq_map root, List.map_map]
  apply List.map_congr_left
  intro r _
  have h1 := md5Flagged_map
    (g := fun s => { s with is_potential_duplicate := markFlag root db s })
    (fun _ => rfl) (fun _ => rfl) root db
  have h2 := fnameFlagged_map
    (g := fun s => { s with is_potential_duplicate := markFlag root db s })
    (fun _ => rfl) (fun _ => rfl) root db
  have h3 : md5Flagged root db { r with is_potential_duplicate := markFlag root db r }
      = md5Flagged root db r := md5Flagged_congr root db rfl
  have h4 : fnameFlagged root db { r with is_potential_duplicate := markFlag root db r }
      = fnameFlagged root db r := fnameFlagged_congr root db rfl
  have hv : markFlag root
      (db.map (fun s => { s with is_potential_duplicate := markFlag root db s }))
      { r with is_potential_duplicate := markFlag root db r } = markFlag root db r := by
    simp only [markFlag] at h1 h2 h3 h4 ⊢
    rw [h1, h2, h3, h4]
    exact boolIdem _ _ _ _
  simp only [Function.comp_apply]
  rw [hv]

/-- Claim C9: running the Classifier, then the Resolution Engine's scoring
and keeper selection, twice on the same unchanged table gives identical
results: the second classification changes nothing, so the flagged set and
the keeper chosen for every content-hash group coincide. -/
theorem classify_resolve_rerun_stable (root : String) (db : List FileRecord) :
    mark_duplicates root (mark_duplicates root db) = mark_duplicates root db
    ∧ flaggedPaths (mark_duplicates root (mark_duplicates root db))
        = flaggedPaths (mark_duplicates root db)
    ∧ keeperChoices root (mark_duplicates root (mark_duplicates root db))
        = keeperChoices root (mark_duplicates root db) := by
  have h := mark_duplicates_idempotent root db
  exact ⟨h, by rw [h], by rw [h]⟩

/-! ### C8: the hierarchical-mode directory gate -/

theorem length_filter_le_of_imp {α : Type} (p q : α → Bool)
    (h : ∀ a, p a = true → q a = true) :
    ∀ l : List α, (l.filter p).length ≤ (l.filter q).length := by
  intro l
  induction l with
  | nil => simp
  | cons x xs ih =>
    rcases hp : p x
    · rcases hq : q x <;> simp [List.filter_cons, hp, hq] <;> omega
    · simp [List.filter_cons, hp, h x hp]
      omega

theorem numFiles_le_raw (entries : List DirEntry) : numFiles entries ≤ rawFileCount entries := by
  unfold numFiles rawFileCount
  apply length_filter_le_of_imp
  intro a ha
  exact (Bool.and_eq_true _ _).mp ha |>.1

/-- Claim C8: in hierarchical (RetroArch ROMs) mode, a visited directory's
files are processed exactly when the gate holds: more than 3 counted files,
or it is the target root with at least one counted file (the count excludes
the script itself and non-regular entries); consequently the claim's
only-if direction also holds for the raw file count, and a non-root
directory with 3 or fewer files is always skipped. -/
theorem scan_gate_spec (isRoot : Bool) (es : List DirEntry) :
    (dirScanned isRoot es = true
      ↔ (3 < numFiles es ∨ (isRoot = true ∧ 1 ≤ numFiles es)))
    ∧ (dirScanned isRoot es = true
      → (3 < rawFileCount es ∨ (isRoot = true ∧ 1 ≤ rawFileCount es)))
    ∧ (rawFileCount es ≤ 3 → dirScanned false es = false) := by
  have hle := numFiles_le_raw es
  refine ⟨?_, ?_, ?_⟩
  · unfold dirScanned
    rcases isRoot
    · simp
      try omega
    · simp
      try omega
  · intro h
    unfold dirScanned at h
    rcases isRoot
    · simp at h
      simp
      try omega
    · simp at h
      simp
      try omega
  · intro h
    unfold dirScanned
    simp
    omega

/-- Witness for `scan_gate_spec`: a non-root directory holding exactly
three files is skipped. -/
theorem scan_gate_spec_witness :
    rawFileCount [⟨"a", true⟩, ⟨"b", true⟩, ⟨"c", true⟩] ≤ 3
    ∧ dirScanned false [⟨"a", true⟩, ⟨"b", true⟩, ⟨"c", true⟩] = false :=
  ⟨by decide, (scan_gate_spec false [⟨"a", true⟩, ⟨"b", true⟩, ⟨"c", true⟩]).2.2 (by decide)⟩

/-! ### C2: ordering lemmas for the scoring helpers -/

theorem charToNat_inj {a b : Char} (h : a.toNat = b.toNat) : a = b := by
  apply Char.ext
  exact UInt32.ext h

theorem stringDataEq {s t : String} (h : s.data = t.data) : s = t := by
  cases s; cases t; exact congrArg String.mk h

theorem charListLtb_trans :
    ∀ a b c : List Char, charListLtb a b = true → charListLtb b c = true →
      charListLtb a c = true := by
  intro a
  induction a with
  | nil =>
    intro b c hab hbc
    cases b with
    | nil => simp [charListLtb] at hab
    | cons y ys =>
      cases c with
      | nil => simp [charListLtb] at hbc
      | cons z zs => simp [charListLtb]
  | cons x xs ih =>
    intro b c hab hbc
    cases b with
    | nil => simp [charListLtb] at hab
    | cons y ys =>
      cases c with
      | nil => simp [charListLtb] at hbc
      | cons z zs =>
        by_cases h1 : x.toNat < y.toNat
        · by_cases h2 : y.toNat < z.toNat
          · have hxz : x.toNat < z.toNat := Nat.lt_trans h1 h2
            simp [charListLtb, hxz]
          · by_cases h3 : z.toNat < y.toNat
            · simp [charListLtb, h2, h3] at hbc
            · have hxz : x.toNat < z.toNat := by omega
              simp [charListLtb, hxz]
        · by_cases h1b : y.toNat < x.toNat
          · simp [charListLtb, h1, h1b] at hab
          · simp [charListLtb, h1, h1b] at hab
            by_cases h2 : y.toNat < z.toNat
            · have hxz : x.toNat < z.toNat := by omega
              simp [charListLtb, hxz]
            · by_cases h3 : z.toNat < y.toNat
              · simp [charListLtb, h2, h3] at hbc
              · simp [charListLtb, h2, h3] at hbc
                have h2b : ¬ x.toNat < z.toNat := by omega
                have h3b : ¬ z.toNat < x.toNat := by omega
                simp [charListLtb, h2b, h3b]
                exact ih ys zs hab hbc

theorem charListLtb_total :
    ∀ a b : List Char, charListLtb a b = true ∨ a = b ∨ charListLtb b a = true := by
  intro a
  induction a with
  | nil =>
    intro b
    cases b with
    | nil => right; left; rfl
    | cons y ys => left; simp [charListLtb]
  | cons x xs ih =>
    intro b
    cases b with
    | nil => right; right; simp [charListLtb]
    | cons y ys =>
      by_cases h1 : x.toNat < y.toNat
      · left; simp [charListLtb, h1]
      · by_cases h2 : y.toNat < x.toNat
        · right; right; simp [charListLtb, h2]
        · have hc : x = y := charToNat_inj (by omega)
          rcases ih ys with h | h | h
          · left; simp [charListLtb, h1, h2, h]
          · right; left; rw [hc, h]
          · right; right; simp [charListLtb, h1, h2, h]

theorem strLtb_trans {a b c : String} (hab : strLtb a b = true) (hbc : strLtb b c = true) :
    strLtb a c = true :=
  charListLtb_trans a.data b.data c.data hab hbc

theorem strLtb_total (a b : String) : strLtb a b = true ∨ a = b ∨ strLtb b a = true := by
  rcases charListLtb_total a.data b.data with h | h | h
  · left; exact h
  · right; left; exact stringDataEq h
  · right; right; exact h

theorem ordChain {r s t : String} (h1 : r = s ∨ strLtb r s = true)
    (h2 : s = t ∨ strLtb s t = true) : r = t ∨ strLtb r t = true := by
  rcases h1 with h1 | h1 <;> rcases h2 with h2 | h2
  · left; rw [h1, h2]
  · right; rw [h1]; exact h2
  · right; rw [← h2]; exact h1
  · right; exact strLtb_trans h1 h2

theorem foldlMin_le_init {α : Type} [LinearOrder α] :
    ∀ (l : List α) (a : α), l.foldl min a ≤ a := by
  intro l
  induction l with
  | nil => intro a; exact le_refl a
  | cons x xs ih =>
    intro a
    exact le_trans (ih (min a x)) (min_le_left a x)

theorem foldlMin_le_mem {α : Type} [LinearOrder α] :
    ∀ (l : List α) (a : α) (x : α), x ∈ l → l.foldl min a ≤ x := by
  intro l
  induction l with
  | nil => intro a x hx; cases hx
  | cons y ys ih =>
    intro a x hx
    rcases List.mem_cons.mp hx with h | h
    · rw [h]
      exact le_trans (foldlMin_le_init ys (min a y)) (min_le_right a y)
    · exact ih (min a y) x h

theorem foldlMin_cases {α : Type} [LinearOrder α] :
    ∀ (l : List α) (a : α), l.foldl min a = a ∨ l.foldl min a ∈ l := by
  intro l
  induction l with
  | nil => intro a; left; rfl
  | cons x xs ih =>
    intro a
    rcases ih (min a x) with h | h
    · rcases min_choice a x with hm | hm
      · left; rw [List.foldl_cons, h, hm]
      · right; rw [List.foldl_cons, h, hm]; exact List.mem_cons_self x xs
    · right; exact List.mem_cons_of_mem x h

theorem shortestNameLen_le (g : List GroupRow) (r : GroupRow) (hr : r ∈ g) :
    shortestNameLen g ≤ r.simplified_filename.length := by
  cases g with
  | nil => cases hr
  | cons hd tl =>
    rcases List.mem_cons.mp hr with h | h
    · rw [h]
      show List.foldl (fun a x => min a x.simplified_filename.length)
        hd.simplified_filename.length tl ≤ hd.simplified_filename.length
      rw [← List.foldl_map (fun x : GroupRow => x.simplified_filename.length) min]
      exact foldlMin_le_init _ _
    · show List.foldl (fun a x => min a x.simplified_filename.length)
        hd.simplified_filename.length tl ≤ r.simplified_filename.length
      rw [← List.foldl_map (fun x : GroupRow => x.simplified_filename.length) min]
      exact foldlMin_le_mem _ _ _ (List.mem_map_of_mem _ h)

theorem shortestNameLen_attained (g : List GroupRow) (hg : g ≠ []) :
    ∃ r ∈ g, r.simplified_filename.length = shortestNameLen g := by
  cases g with
  | nil => exact absurd rfl hg
  | cons hd tl =>
    have heq : shortestNameLen (hd :: tl)
        = (tl.map (fun x : GroupRow => x.simplified_filename.length)).foldl min
            hd.simplified_filename.length :=
      (List.foldl_map (fun x : GroupRow => x.simplified_filename.length) min tl _).symm
    rcases foldlMin_cases (tl.map fun x : GroupRow => x.simplified_filename.length)
        hd.simplified_filename.length with h | h
    · exact ⟨hd, List.mem_cons_self hd tl, by rw [heq, h]⟩
    · rcases List.mem_map.mp h with ⟨r, hrtl, hre⟩
      exact ⟨r, List.mem_cons_of_mem hd hrtl, by rw [heq, hre]⟩

theorem minSizeMB_le (g : List GroupRow) (r : GroupRow) (hr : r ∈ g) :
    minSizeMB g ≤ r.size_mb := by
  cases g with
  | nil => cases hr
  | cons hd tl =>
    rcases List.mem_cons.mp hr with h | h
    · rw [h]
      show List.foldl (fun a x => min a x.size_mb) hd.size_mb tl ≤ hd.size_mb
      rw [← List.foldl_map (fun x : GroupRow => x.size_mb) min]
      exact foldlMin_le_init _ _
    · show List.foldl (fun a x => min a x.size_mb) hd.size_mb tl ≤ r.size_mb
      rw [← List.foldl_map (fun x : GroupRow => x.size_mb) min]
      exact foldlMin_le_mem _ _ _ (List.mem_map_of_mem _ h)

theorem minSizeMB_attained (g : List GroupRow) (hg : g ≠ []) :
    ∃ r ∈ g, r.size_mb = minSizeMB g := by
  cases g with
  | nil => exact absurd rfl hg
  | cons hd tl =>
    have heq : minSizeMB (hd :: tl)
        = (tl.map (fun x : GroupRow => x.size_mb)).foldl min hd.size_mb :=
      (List.foldl_map (fun x : GroupRow => x.size_mb) min tl _).symm
    rcases foldlMin_cases (tl.map fun x : GroupRow => x.size_mb) hd.size_mb with h | h
    · exact ⟨hd, List.mem_cons_self hd tl, by rw [heq, h]⟩
    · rcases List.mem_map.mp h with ⟨r, hrtl, hre⟩
      exact ⟨r, List.mem_cons_of_mem hd hrtl, by rw [heq, hre]⟩

theorem alphaFold_spec :
    ∀ (l : List GroupRow) (a : String),
      (alphaFold l a = a ∨ ∃ r ∈ l, alphaFold l a = r.simplified_filename)
      ∧ (alphaFold l a = a ∨ strLtb (alphaFold l a) a = true)
      ∧ (∀ x ∈ l, alphaFold l a = x.simplified_filename
          ∨ strLtb (alphaFold l a) x.simplified_filename = true) := by
  intro l
  induction l with
  | nil =>
    intro a
    refine ⟨Or.inl rfl, Or.inl rfl, ?_⟩
    intro x hx; cases hx
  | cons x xs ih =>
    intro a
    rcases hb : strLtb x.simplified_filename a
    · have hstep : alphaFold (x :: xs) a = alphaFold xs a := by
        unfold alphaFold
        simp [hb]
      obtain ⟨ih1, ih2, ih3⟩ := ih a
      rw [hstep]
      refine ⟨?_, ih2, ?_⟩
      · rcases ih1 with h | ⟨r, hr, he⟩
        · exact Or.inl h
        · exact Or.inr ⟨r, List.mem_cons_of_mem x hr, he⟩
      · intro y hy
        rcases List.mem_cons.mp hy with h | h
        · have hax : a = x.simplified_filename ∨ strLtb a x.simplified_filename = true := by
            rcases strLtb_total x.simplified_filename a with ht | ht | ht
            · simp [ht] at hb
            · exact Or.inl ht.symm
            · exact Or.inr ht
          rw [h]
          exact ordChain ih2 hax
        · exact ih3 y h
    · have hstep : alphaFold (x :: xs) a = alphaFold xs x.simplified_filename := by
        unfold alphaFold
        simp [hb]
      obtain ⟨ih1, ih2, ih3⟩ := ih x.simplified_filename
      rw [hstep]
      refine ⟨?_, ?_, ?_⟩
      · rcases ih1 with h | ⟨r, hr, he⟩
        · exact Or.inr ⟨x, List.mem_cons_self x xs, h⟩
        · exact Or.inr ⟨r, List.mem_cons_of_mem x hr, he⟩
      · exact Or.inr
          (by rcases ih2 with h | h
              · rw [h]; exact hb
              · exact strLtb_trans h hb)
      · intro y hy
        rcases List.mem_cons.mp hy with h | h
        · rw [h]; exact ih2
        · exact ih3 y h

theorem firstAlpha_le (g : List GroupRow) (r : GroupRow) (hr : r ∈ g) :
    firstAlpha g = r.simplified_filename
      ∨ strLtb (firstAlpha g) r.simplified_filename = true := by
  cases g with
  | nil => cases hr
  | cons hd tl =>
    have h := alphaFold_spec tl hd.simplified_filename
    rcases List.mem_cons.mp hr with he | he
    · show alphaFold tl hd.simplified_filename = r.simplified_filename ∨ _
      rw [he]
      exact h.2.1
    · exact h.2.2 r he

theorem firstAlpha_mem (g : List GroupRow) (hg : g ≠ []) :
    ∃ r ∈ g, r.simplified_filename = firstAlpha g := by
  cases g with
  | nil => exact absurd rfl hg
  | cons hd tl =>
    rcases (alphaFold_spec tl hd.simplified_filename).1 with h | ⟨r, hr, he⟩
    · exact ⟨hd, List.mem_cons_self hd tl, h.symm⟩
    · exact ⟨r, List.mem_cons_of_mem hd hr, he.symm⟩

theorem bestFold_spec :
    ∀ (rest : List (String × Nat)) (s : String × Nat),
      (bestFold s rest = s ∨ bestFold s rest ∈ rest)
      ∧ s.2 ≤ (bestFold s rest).2
      ∧ ∀ x ∈ rest, x.2 ≤ (bestFold s rest).2 := by
  intro rest
  induction rest with
  | nil =>
    intro s
    refine ⟨Or.inl rfl, le_refl _, ?_⟩
    intro x hx; cases hx
  | cons x xs ih =>
    intro s
    by_cases hb : x.2 > s.2
    · have hstep : bestFold s (x :: xs) = bestFold x xs := by
        unfold bestFold; simp [hb]
      obtain ⟨ih1, ih2, ih3⟩ := ih x
      rw [hstep]
      refine ⟨?_, le_trans (le_of_lt hb) ih2, ?_⟩
      · rcases ih1 with h | h
        · exact Or.inr (by rw [h]; exact List.mem_cons_self x xs)
        · exact Or.inr (List.mem_cons_of_mem x h)
      · intro y hy
        rcases List.mem_cons.mp hy with h | h
        · rw [h]; exact ih2
        · exact ih3 y h
    · have hstep : bestFold s (x :: xs) = bestFold s xs := by
        unfold bestFold; simp [hb]
      obtain ⟨ih1, ih2, ih3⟩ := ih s
      rw [hstep]
      refine ⟨?_, ih2, ?_⟩
      · rcases ih1 with h | h
        · exact Or.inl h
        · exact Or.inr (List.mem_cons_of_mem x h)
      · intro y hy
        rcases List.mem_cons.mp hy with h | h
        · rw [h]; exact le_trans (Nat.not_lt.mp hb) ih2
        · exact ih3 y h

theorem keeper_spec (g : List GroupRow) (hg : g ≠ []) :
    ∃ kr ∈ g, kr.filepath = file_to_keep (scoresOf g)
      ∧ ∀ r ∈ g, rowScore g r ≤ rowScore g kr := by
  cases g with
  | nil => exact absurd rfl hg
  | cons hd tl =>
    obtain ⟨h1, h2, h3⟩ := bestFold_spec
      (tl.map (fun r => (r.filepath, rowScore (hd :: tl) r)))
      (hd.filepath, rowScore (hd :: tl) hd)
    rcases h1 with h | h
    · refine ⟨hd, List.mem_cons_self hd tl, ?_, ?_⟩
      · show hd.filepath = (bestFold (hd.filepath, rowScore (hd :: tl) hd)
          (tl.map (fun r => (r.filepath, rowScore (hd :: tl) r)))).1
        rw [h]
      · intro r hr
        rcases List.mem_cons.mp hr with he | he
        · rw [he]
        · have hx := h3 _ (List.mem_map_of_mem _ he)
          rw [h] at hx
          exact hx
    · rcases List.mem_map.mp h with ⟨kr, hktl, hke⟩
      refine ⟨kr, List.mem_cons_of_mem hd hktl, ?_, ?_⟩
      · show kr.filepath = (bestFold (hd.filepath, rowScore (hd :: tl) hd)
          (tl.map (fun r => (r.filepath, rowScore (hd :: tl) r)))).1
        rw [← hke]
      · intro r hr
        have hks : rowScore (hd :: tl) kr = (bestFold (hd.filepath, rowScore (hd :: tl) hd)
            (tl.map (fun r => (r.filepath, rowScore (hd :: tl) r)))).2 := by
          rw [← hke]
        rcases List.mem_cons.mp hr with he | he
        · rw [he, hks]; exact h2
        · rw [hks]; exact h3 _ (List.mem_map_of_mem _ he)

theorem rowScore_formula (g : List GroupRow) (r : GroupRow) :
    rowScore g r = (if r.simplified_filename.length = shortestNameLen g then 3 else 0)
      + (if r.simplified_filename = firstAlpha g then 2 else 0)
      + (if r.size_mb = minSizeMB g ∧ 0 < minSizeMB g then 1 else 0) := by
  by_cases h1 : r.simplified_filename.length = shortestNameLen g <;>
  by_cases h2 : r.simplified_filename = firstAlpha g <;>
  by_cases h3 : (r.size_mb = minSizeMB g ∧ 0 < minSizeMB g) <;>
  simp [rowScore, h1, h2, h3]

/-- Claim C2: in every processed content-hash group, each member's score is
3 for having a minimum-length simplified name, plus 2 for having the
lexicographically smallest simplified name, plus 1 for having the minimal
size when that minimum is positive (the helper values really are the
group's minima), and the keeper is a member of maximal score; on the
specification's scenario B (names "a", "aa", "aaa", identical content and
identical size) the scores are 5, 0, 0, the keeper is "a.bin", and the
other two members are the relocation candidates. -/
theorem scoring_and_keeper_spec (g : List GroupRow) (hg : g ≠ []) :
    (∀ r : GroupRow, rowScore g r
        = (if r.simplified_filename.length = shortestNameLen g then 3 else 0)
          + (if r.simplified_filename = firstAlpha g then 2 else 0)
          + (if r.size_mb = minSizeMB g ∧ 0 < minSizeMB g then 1 else 0))
    ∧ (∀ r ∈ g, shortestNameLen g ≤ r.simplified_filename.length)
    ∧ (∃ r ∈ g, r.simplified_filename.length = shortestNameLen g)
    ∧ (∀ r ∈ g, firstAlpha g = r.simplified_filename
        ∨ strLtb (firstAlpha g) r.simplified_filename = true)
    ∧ (∃ r ∈ g, r.simplified_filename = firstAlpha g)
    ∧ (∀ r ∈ g, minSizeMB g ≤ r.size_mb)
    ∧ (∃ r ∈ g, r.size_mb = minSizeMB g)
    ∧ (∃ kr ∈ g, kr.filepath = file_to_keep (scoresOf g)
        ∧ ∀ r ∈ g, rowScore g r ≤ rowScore g kr)
    ∧ scoresOf scenarioBGroup = [("/t/a.bin", 5), ("/t/aa.bin", 0), ("/t/aaa.bin", 0)]
    ∧ file_to_keep (scoresOf scenarioBGroup) = "/t/a.bin"
    ∧ scenarioBGroup.filter
        (fun r => r.filepath != file_to_keep (scoresOf scenarioBGroup))
          = [⟨"/t/aa.bin", "aa", 0⟩, ⟨"/t/aaa.bin", "aaa", 0⟩] := by
  refine ⟨rowScore_formula g, shortestNameLen_le g, shortestNameLen_attained g hg,
    firstAlpha_le g, firstAlpha_mem g hg, minSizeMB_le g, minSizeMB_attained g hg,
    keeper_spec g hg, by decide, by decide, by decide⟩

/-- Witness for `scoring_and_keeper_spec` at scenario B. -/
theorem scoring_and_keeper_spec_witness :
    scenarioBGroup ≠ []
      ∧ (∃ kr ∈ scenarioBGroup,
          kr.filepath = file_to_keep (scoresOf scenarioBGroup)
          ∧ ∀ r ∈ scenarioBGroup,
              rowScore scenarioBGroup r ≤ rowScore scenarioBGroup kr) :=
  ⟨by decide, (scoring_and_keeper_spec scenarioBGroup (by decide)).2.2.2.2.2.2.2.1⟩

/-! ### C3: exactly one keeper per processed group -/

theorem mem_dedupFold :
    ∀ (l acc : List String) (h : String),
      h ∈ l.foldl (fun acc h => if h ∈ acc then acc else acc ++ [h]) acc
        ↔ h ∈ acc ∨ h ∈ l := by
  intro l
  induction l with
  | nil => intro acc h; simp
  | cons x xs ih =>
    intro acc h
    show h ∈ xs.foldl _ (if x ∈ acc then acc else acc ++ [x]) ↔ _
    rw [ih]
    by_cases hx : x ∈ acc
    · rw [if_pos hx]
      constructor
      · rintro (hh | hh)
        · exact Or.inl hh
        · exact Or.inr (List.mem_cons_of_mem x hh)
      · rintro (hh | hh)
        · exact Or.inl hh
        · rcases List.mem_cons.mp hh with he | he
          · rw [he]; exact Or.inl hx
          · exact Or.inr he
    · rw [if_neg hx]
      simp only [List.mem_append, List.mem_singleton, List.mem_cons]
      tauto

theorem two_mem_filter {α : Type} (l : List α) (p : α → Bool) (a b : α)
    (ha : a ∈ l) (hb : b ∈ l) (hab : a ≠ b) (hpa : p a = true) (hpb : p b = true) :
    2 ≤ (l.filter p).length := by
  rcases List.append_of_mem ha with ⟨s, t, rfl⟩
  have hb2 : b ∈ s ∨ b ∈ t := by
    rcases List.mem_append.mp hb with h | h
    · exact Or.inl h
    · rcases List.mem_cons.mp h with he | he
      · exact absurd he.symm hab
      · exact Or.inr he
  rw [List.filter_append, List.length_append, List.filter_cons, if_pos hpa]
  rcases hb2 with h | h
  · have : 0 < (s.filter p).length :=
      List.length_pos.mpr (List.ne_nil_of_mem (List.mem_filter.mpr ⟨h, hpb⟩))
    simp only [List.length_cons]
    omega
  · have : 0 < (t.filter p).length :=
      List.length_pos.mpr (List.ne_nil_of_mem (List.mem_filter.mpr ⟨h, hpb⟩))
    simp only [List.length_cons]
    omega

theorem count_filter_map_md5 :
    ∀ (l : List FileRecord) (h : String),
      ((l.map (fun r => r.md5)).filter (fun x => x == h)).length
        = (l.filter (fun r => r.md5 == h)).length := by
  intro l h
  induction l with
  | nil => rfl
  | cons x xs ih =>
    rcases hx : (x.md5 == h) <;>
      simp [List.map_cons, List.filter_cons, hx, ih]

theorem mem_duplicateHashes (root : String) (db : List FileRecord) (h : String)
    (r1 r2 : FileRecord) (h1 : r1 ∈ db) (h2 : r2 ∈ db) (hne : r1 ≠ r2)
    (hm1 : r1.md5 = h) (hm2 : r2.md5 = h) (hhe : h ≠ "")
    (hf1 : r1.is_potential_duplicate = true) (hf2 : r2.is_potential_duplicate = true)
    (hu1 : underRoot root r1.filepath = true) (hu2 : underRoot root r2.filepath = true) :
    h ∈ duplicateHashes root db := by
  have hr1f : r1 ∈ db.filter (fun r =>
      r.is_potential_duplicate && (r.md5 != "") && underRoot root r.filepath) :=
    List.mem_filter.mpr ⟨h1, by simp [hf1, hu1, hm1, bne_iff_ne, hhe]⟩
  have hr2f : r2 ∈ db.filter (fun r =>
      r.is_potential_duplicate && (r.md5 != "") && underRoot root r.filepath) :=
    List.mem_filter.mpr ⟨h2, by simp [hf2, hu2, hm2, bne_iff_ne, hhe]⟩
  apply List.mem_filter.mpr
  constructor
  · apply (mem_dedupFold (flaggedHashes root db) [] h).mpr
    right
    exact List.mem_map.mpr ⟨r1, hr1f, hm1⟩
  · simp only [decide_eq_true_eq]
    unfold flaggedHashes
    rw [count_filter_map_md5]
    exact two_mem_filter _ _ r1 r2 hr1f hr2f hne
      (by simp [hm1]) (by simp [hm2])

theorem membersOf_two_le (root : String) (db : List FileRecord) (h : String)
    (r1 r2 : FileRecord) (h1 : r1 ∈ db) (h2 : r2 ∈ db)
    (hne : r1.filepath ≠ r2.filepath) (hm1 : r1.md5 = h) (hm2 : r2.md5 = h)
    (hu1 : underRoot root r1.filepath = true) (hu2 : underRoot root r2.filepath = true) :
    1 < (membersOf root db h).length := by
  unfold membersOf
  rw [List.length_map]
  have := two_mem_filter db (fun r => (r.md5 == h) && underRoot root r.filepath) r1 r2
    h1 h2 (fun he => hne (by rw [he])) (by simp [hm1, hu1]) (by simp [hm2, hu2])
  omega

theorem membersOf_paths_nodup (root : String) (db : List FileRecord) (h : String)
    (hnd : (db.map (fun r => r.filepath)).Nodup) :
    ((membersOf root db h).map (fun m => m.filepath)).Nodup := by
  unfold membersOf
  rw [List.map_map]
  show ((db.filter _).map (fun r : FileRecord => r.filepath)).Nodup
  exact hnd.sublist ((List.filter_sublist _).map _)

theorem filter_ne_keep_length :
    ∀ (l : List GroupRow) (keep : String),
      (l.map (fun m => m.filepath)).Nodup → keep ∈ l.map (fun m => m.filepath) →
      (l.filter (fun m => m.filepath != keep)).length = l.length - 1 := by
  intro l
  induction l with
  | nil => intro keep _ hk; cases hk
  | cons x xs ih =>
    intro keep hnd hk
    have hnd2 := List.nodup_cons.mp hnd
    rcases List.mem_cons.mp hk with he | he
    · have hxs : ∀ m ∈ xs, (fun m : GroupRow => m.filepath != keep) m = true := by
        intro m hm
        apply bne_iff_ne.mpr
        intro hcon
        have hmm : m.filepath ∈ List.map (fun m => m.filepath) xs :=
          List.mem_map_of_mem _ hm
        rw [hcon, he] at hmm
        exact hnd2.1 hmm
      have hx : (x.filepath != keep) = false := by
        simp [he]
      rw [List.filter_cons, hx]
      simp only [Bool.false_eq_true, if_false]
      rw [List.filter_eq_self.mpr hxs]
      simp
    · have hxne : (x.filepath != keep) = true := by
        apply bne_iff_ne.mpr
        intro hcon
        exact hnd2.1 (by rw [← hcon] at he; exact he)
      rw [List.filter_cons, if_pos hxne]
      have ihr := ih keep hnd2.2 he
      have hlen : 1 ≤ xs.length := by
        rcases List.mem_map.mp he with ⟨m, hm, _⟩
        exact List.length_pos.mpr (List.ne_nil_of_mem hm)
      simp only [List.length_cons, ihr]
      omega

theorem processOne_preserves (env : String → String → Bool) (msub now : String)
    (st : PState) (fp : String) (r : FileRecord) (hr : r ∈ st.files)
    (hne : r.filepath ≠ fp) : r ∈ (processOne env msub now st fp).files := by
  unfold processOne
  rcases fsMove env st.fs fp (relocDest st msub fp) with _ | fs2
  · exact hr
  · exact List.mem_filter.mpr ⟨hr, bne_iff_ne.mpr hne⟩

theorem foldProcess_keeps (env : String → String → Bool) (msub now keep : String) :
    ∀ (rows : List GroupRow) (st : PState) (r : FileRecord), r ∈ st.files →
      r.filepath = keep →
      r ∈ (rows.foldl (fun s m =>
        if m.filepath ≠ keep then processOne env msub now s m.filepath else s) st).files := by
  intro rows
  induction rows with
  | nil => intro st r hr _; exact hr
  | cons m ms ih =>
    intro st r hr hk
    show r ∈ (ms.foldl _
      (if m.filepath ≠ keep then processOne env msub now st m.filepath else st)).files
    by_cases hm : m.filepath ≠ keep
    · rw [if_pos hm]
      refine ih _ r (processOne_preserves env msub now st m.filepath r hr ?_) hk
      rw [hk]
      exact fun hcon => hm hcon.symm
    · rw [if_neg hm]
      exact ih _ r hr hk

theorem processGroup_keeper_intact (env : String → String → Bool) (msub now : String)
    (rows : List GroupRow) (st : PState) (r : FileRecord)
    (hr : r ∈ st.files) (hk : r.filepath = file_to_keep (scoresOf rows)) :
    r ∈ (processGroup env msub now st rows).files := by
  unfold processGroup
  by_cases hlen : rows.length > 1
  · rw [if_pos hlen]
    exact foldProcess_keeps env msub now _ rows st r hr hk
  · rw [if_neg hlen]
    exact hr

/-- Claim C3: for every non-empty content hash shared by at least two
duplicate-flagged FileRecords under the root, the hash is processed, its
member group has n > 1 rows, the keeper is one of the members, the loop's
relocation candidates are exactly the other n - 1 members, and the
keeper's FileRecord survives the group's processing intact. -/
theorem resolution_exactly_one_keeper (root h : String) (db : List FileRecord)
    (hnd : (db.map (fun r => r.filepath)).Nodup)
    (r1 r2 : FileRecord) (h1 : r1 ∈ db) (h2 : r2 ∈ db)
    (hne : r1.filepath ≠ r2.filepath)
    (hm1 : r1.md5 = h) (hm2 : r2.md5 = h) (hhe : h ≠ "")
    (hf1 : r1.is_potential_duplicate = true) (hf2 : r2.is_potential_duplicate = true)
    (hu1 : underRoot root r1.filepath = true) (hu2 : underRoot root r2.filepath = true) :
    h ∈ duplicateHashes root db
    ∧ 1 < (membersOf root db h).length
    ∧ file_to_keep (scoresOf (membersOf root db h))
        ∈ (membersOf root db h).map (fun m => m.filepath)
    ∧ ((membersOf root db h).filter (fun m =>
        m.filepath != file_to_keep (scoresOf (membersOf root db h)))).length
          = (membersOf root db h).length - 1
    ∧ ∀ (env : String → String → Bool) (msub now : String) (st : PState) (r : FileRecord),
        r ∈ st.files → r.filepath = file_to_keep (scoresOf (membersOf root db h)) →
        r ∈ (processGroup env msub now st (membersOf root db h)).files := by
  have hrne : r1 ≠ r2 := fun he => hne (by rw [he])
  have hlen := membersOf_two_le root db h r1 r2 h1 h2 hne hm1 hm2 hu1 hu2
  have hnil : membersOf root db h ≠ [] := by
    intro hc
    rw [hc] at hlen
    simp at hlen
  obtain ⟨kr, hkr, hkeq, _⟩ := keeper_spec (membersOf root db h) hnil
  have hkm : file_to_keep (scoresOf (membersOf root db h))
      ∈ (membersOf root db h).map (fun m => m.filepath) := by
    rw [← hkeq]
    exact List.mem_map_of_mem _ hkr
  exact ⟨mem_duplicateHashes root db h r1 r2 h1 h2 hrne hm1 hm2 hhe hf1 hf2 hu1 hu2,
    hlen, hkm, filter_ne_keep_length _ _ (membersOf_paths_nodup root db h hnd) hkm,
    fun env msub now st r hr hk => processGroup_keeper_intact env msub now _ st r hr hk⟩

/-- Witness for `resolution_exactly_one_keeper` at a concrete table. -/
theorem resolution_exactly_one_keeper_witness :
    "h1" ∈ duplicateHashes "/r" wTrioDb
    ∧ 1 < (membersOf "/r" wTrioDb "h1").length
    ∧ file_to_keep (scoresOf (membersOf "/r" wTrioDb "h1"))
        ∈ (membersOf "/r" wTrioDb "h1").map (fun m => m.filepath)
    ∧ ((membersOf "/r" wTrioDb "h1").filter (fun m =>
        m.filepath != file_to_keep (scoresOf (membersOf "/r" wTrioDb "h1")))).length
          = (membersOf "/r" wTrioDb "h1").length - 1
    ∧ ∀ (env : String → String → Bool) (msub now : String) (st : PState) (r : FileRecord),
        r ∈ st.files → r.filepath = file_to_keep (scoresOf (membersOf "/r" wTrioDb "h1")) →
        r ∈ (processGroup env msub now st (membersOf "/r" wTrioDb "h1")).files :=
  resolution_exactly_one_keeper "/r" "h1" wTrioDb (by decide)
    ⟨"/r/a.bin", "a.bin", "h1", "a", 0, "", "", "bin", true⟩
    ⟨"/r/bb.bin", "bb.bin", "h1", "bb", 0, "", "", "bin", true⟩
    (by decide) (by decide) (by decide) (by decide) (by decide) (by decide)
    (by decide) (by decide) (by decide) (by decide)

/-! ### C4: collision-safe destination naming -/

theorem decChars_eq_digits :
    ∀ (fuel n : Nat), n ≤ fuel →
      decChars fuel n = ((Nat.digits 10 n).map Nat.digitChar).reverse := by
  intro fuel
  induction fuel with
  | zero =>
    intro n hn
    have h0 : n = 0 := Nat.le_zero.mp hn
    subst h0
    simp [decChars]
  | succ f ih =>
    intro n hn
    by_cases h0 : n = 0
    · subst h0
      simp [decChars]
    · have hpos : 0 < n := Nat.pos_of_ne_zero h0
      have hd : Nat.digits 10 n = n % 10 :: Nat.digits 10 (n / 10) :=
        Nat.digits_def' (by norm_num) hpos
      have hdiv : n / 10 ≤ f := by
        have : n / 10 < n := Nat.div_lt_self hpos (by norm_num)
        omega
      have hstep : decChars (f + 1) n
          = decChars f (n / 10) ++ [Nat.digitChar (n % 10)] := by
        simp [decChars, h0]
      rw [hstep, ih (n / 10) hdiv, hd]
      simp

theorem digitChar_inj10 : ∀ a < 10, ∀ b < 10, Nat.digitChar a = Nat.digitChar b → a = b := by
  decide

theorem mapDigitChar_inj :
    ∀ (l1 l2 : List Nat), (∀ x ∈ l1, x < 10) → (∀ x ∈ l2, x < 10) →
      l1.map Nat.digitChar = l2.map Nat.digitChar → l1 = l2 := by
  intro l1
  induction l1 with
  | nil =>
    intro l2 _ _ h
    cases l2 with
    | nil => rfl
    | cons y ys => simp at h
  | cons x xs ih =>
    intro l2 hb1 hb2 h
    cases l2 with
    | nil => simp at h
    | cons y ys =>
      simp only [List.map_cons, List.cons.injEq] at h
      have hx := digitChar_inj10 x (hb1 x (List.mem_cons_self x xs))
        y (hb2 y (List.mem_cons_self y ys)) h.1
      rw [hx, ih ys (fun z hz => hb1 z (List.mem_cons_of_mem x hz))
        (fun z hz => hb2 z (List.mem_cons_of_mem y hz)) h.2]

theorem decRepr_inj_pos {m n : Nat} (hm : 0 < m) (hn : 0 < n)
    (h : decRepr m = decRepr n) : m = n := by
  unfold decRepr at h
  rw [if_neg (by omega), if_neg (by omega)] at h
  have hdata : decChars m m = decChars n n := congrArg String.data h
  rw [decChars_eq_digits m m (le_refl m), decChars_eq_digits n n (le_refl n)] at hdata
  have hmap := List.reverse_inj.mp hdata
  have hdig := mapDigitChar_inj _ _
    (fun x hx => Nat.digits_lt_base (by norm_num) hx)
    (fun x hx => Nat.digits_lt_base (by norm_num) hx) hmap
  have := congrArg (Nat.ofDigits 10) hdig
  rw [Nat.ofDigits_digits, Nat.ofDigits_digits] at this
  exact_mod_cast this

theorem candName_inj {base ext : String} {i j : Nat} (hi : 0 < i) (hj : 0 < j)
    (h : candName base i ext = candName base j ext) : i = j := by
  unfold candName at h
  have hdata := congrArg String.data h
  simp only [String.data_append] at hdata
  have h2 := List.append_cancel_right hdata
  have h3 := List.append_cancel_left h2
  exact decRepr_inj_pos hi hj (stringDataEq h3)

theorem joinPath_inj {d a b : String} (h : joinPath d a = joinPath d b) : a = b := by
  unfold joinPath at h
  have hdata := congrArg String.data h
  simp only [String.data_append] at hdata
  exact stringDataEq (List.append_cancel_left hdata)

theorem pathExists_iff (fs : List String) (p : String) :
    pathExists fs p = true ↔ p ∈ fs := by
  unfold pathExists
  rw [List.any_eq_true]
  constructor
  · rintro ⟨q, hq, he⟩
    rw [← beq_iff_eq.mp he]
    exact hq
  · intro hp
    exact ⟨p, hp, beq_iff_eq.mpr rfl⟩

theorem free_candidate_exists (fs : List String) (d b e : String) :
    ∃ j, j < fs.length + 1
      ∧ pathExists fs (joinPath d (candName b (1 + j) e)) = false := by
  by_contra hc
  push_neg at hc
  have hall : ∀ j, j < fs.length + 1 →
      pathExists fs (joinPath d (candName b (1 + j) e)) = true := by
    intro j hj
    have := hc j hj
    rcases hb : pathExists fs (joinPath d (candName b (1 + j) e))
    · exact absurd hb this
    · rfl
  have hnd : ((List.range (fs.length + 1)).map
      (fun j => joinPath d (candName b (1 + j) e))).Nodup := by
    apply List.Nodup.map_on ?_ (List.nodup_range _)
    intro x _ y _ hxy
    have := candName_inj (by omega) (by omega) (joinPath_inj hxy)
    omega
  have hsub : ((List.range (fs.length + 1)).map
      (fun j => joinPath d (candName b (1 + j) e))) ⊆ fs := by
    intro c hcL
    rcases List.mem_map.mp hcL with ⟨j, hj, rfl⟩
    exact (pathExists_iff fs _).mp (hall j (List.mem_range.mp hj))
  have hlen := (hnd.subperm hsub).length_le
  simp at hlen

theorem findFreeIdx_spec (fs : List String) (d b e : String) :
    ∀ (fuel k : Nat),
      (∃ j, j < fuel ∧ pathExists fs (joinPath d (candName b (k + j) e)) = false) →
      pathExists fs (joinPath d (candName b (findFreeIdx fs d b e fuel k) e)) = false
      ∧ k ≤ findFreeIdx fs d b e fuel k
      ∧ ∀ i, k ≤ i → i < findFreeIdx fs d b e fuel k →
          pathExists fs (joinPath d (candName b i e)) = true := by
  intro fuel
  induction fuel with
  | zero =>
    rintro k ⟨j, hj, _⟩
    exact absurd hj (Nat.not_lt_zero j)
  | succ f ih =>
    intro k hex
    rcases hc : pathExists fs (joinPath d (candName b k e))
    · have hres : findFreeIdx fs d b e (f + 1) k = k := by
        simp [findFreeIdx, hc]
      rw [hres]
      exact ⟨hc, le_refl k, fun i hi1 hi2 => absurd (lt_of_le_of_lt hi1 hi2) (lt_irrefl k)⟩
    · have hres : findFreeIdx fs d b e (f + 1) k = findFreeIdx fs d b e f (k + 1) := by
        simp [findFreeIdx, hc]
      rcases hex with ⟨j, hj, hfree⟩
      have hj0 : j ≠ 0 := by
        intro h0
        subst h0
        rw [Nat.add_zero] at hfree
        rw [hfree] at hc
        cases hc
      obtain ⟨hfree2, hge, hall⟩ := ih (k + 1)
        ⟨j - 1, by omega, by
          have he : k + 1 + (j - 1) = k + j := by omega
          rw [he]
          exact hfree⟩
      rw [hres]
      refine ⟨hfree2, by omega, ?_⟩
      intro i hi1 hi2
      by_cases hik : i = k
      · rw [hik]
        exact hc
      · exact hall i (by omega) hi2

theorem destPath_free (fs : List String) (d fname : String) :
    pathExists fs (destPath fs d fname) = false := by
  unfold destPath
  rcases hc : pathExists fs (joinPath d fname)
  · simp [hc]
  · simp only [hc, if_true]
    obtain ⟨j, hj, hfree⟩ := free_candidate_exists fs d (splitExt fname).1 (splitExt fname).2
    exact (findFreeIdx_spec fs d (splitExt fname).1 (splitExt fname).2
      (fs.length + 1) 1 ⟨j, hj, hfree⟩).1

/-- Claim C4: when the plain destination `dir/filename` already exists, the
Relocator picks `dir/base_k.ext` for the smallest positive k whose
candidate does not exist, so the chosen destination never collides with an
existing path; relocating two distinct files both named "rom.bin" into
"/q" lands them at "/q/rom.bin" and "/q/rom_1.bin". -/
theorem collision_safe_naming (fs : List String) (d fname : String)
    (hex : pathExists fs (joinPath d fname) = true) :
    destPath fs d fname
        = joinPath d (candName (splitExt fname).1
            (findFreeIdx fs d (splitExt fname).1 (splitExt fname).2 (fs.length + 1) 1)
            (splitExt fname).2)
    ∧ 1 ≤ findFreeIdx fs d (splitExt fname).1 (splitExt fname).2 (fs.length + 1) 1
    ∧ pathExists fs (destPath fs d fname) = false
    ∧ (∀ i, 1 ≤ i →
        i < findFreeIdx fs d (splitExt fname).1 (splitExt fname).2 (fs.length + 1) 1 →
        pathExists fs (joinPath d (candName (splitExt fname).1 i (splitExt fname).2)) = true)
    ∧ destPath [] "/q" "rom.bin" = "/q/rom.bin"
    ∧ destPath ["/q/rom.bin"] "/q" "rom.bin" = "/q/rom_1.bin"
    ∧ lookupFS "/q/rom.bin" romSt2.fs = some 1
    ∧ lookupFS "/q/rom_1.bin" romSt2.fs = some 2
    ∧ lookupFS "/data/a/rom.bin" romSt2.fs = none
    ∧ lookupFS "/data/b/rom.bin" romSt2.fs = none := by
  obtain ⟨j, hj, hfree⟩ := free_candidate_exists fs d (splitExt fname).1 (splitExt fname).2
  obtain ⟨h1, h2, h3⟩ := findFreeIdx_spec fs d (splitExt fname).1 (splitExt fname).2
    (fs.length + 1) 1 ⟨j, hj, hfree⟩
  refine ⟨by unfold destPath; simp [hex], h2, destPath_free fs d fname, h3,
    by decide, by decide, by decide, by decide, by decide, by decide⟩

/-- Witness for `collision_safe_naming` at a concrete filesystem. -/
theorem collision_safe_naming_witness :
    pathExists ["/q/rom.bin"] (joinPath "/q" "rom.bin") = true
    ∧ (destPath ["/q/rom.bin"] "/q" "rom.bin"
        = joinPath "/q" (candName (splitExt "rom.bin").1
            (findFreeIdx ["/q/rom.bin"] "/q" (splitExt "rom.bin").1 (splitExt "rom.bin").2
              (["/q/rom.bin"].length + 1) 1)
            (splitExt "rom.bin").2)
      ∧ 1 ≤ findFreeIdx ["/q/rom.bin"] "/q" (splitExt "rom.bin").1 (splitExt "rom.bin").2
          (["/q/rom.bin"].length + 1) 1
      ∧ pathExists ["/q/rom.bin"] (destPath ["/q/rom.bin"] "/q" "rom.bin") = false
      ∧ (∀ i, 1 ≤ i →
          i < findFreeIdx ["/q/rom.bin"] "/q" (splitExt "rom.bin").1 (splitExt "rom.bin").2
            (["/q/rom.bin"].length + 1) 1 →
          pathExists ["/q/rom.bin"]
            (joinPath "/q" (candName (splitExt "rom.bin").1 i (splitExt "rom.bin").2)) = true)
      ∧ destPath [] "/q" "rom.bin" = "/q/rom.bin"
      ∧ destPath ["/q/rom.bin"] "/q" "rom.bin" = "/q/rom_1.bin"
      ∧ lookupFS "/q/rom.bin" romSt2.fs = some 1
      ∧ lookupFS "/q/rom_1.bin" romSt2.fs = some 2
      ∧ lookupFS "/data/a/rom.bin" romSt2.fs = none
      ∧ lookupFS "/data/b/rom.bin" romSt2.fs = none) :=
  ⟨by decide, collision_safe_naming ["/q/rom.bin"] "/q" "rom.bin" (by decide)⟩

/-! ### C5: relocate-then-restore round trip -/

theorem lookupFS_head (p : String) (v : Nat) (l : FS) :
    lookupFS p ((p, v) :: l) = some v := by
  unfold lookupFS
  rw [if_pos rfl]

theorem lookupFS_cons_ne {p q : String} (hne : q ≠ p) (v : Nat) (l : FS) :
    lookupFS p ((q, v) :: l) = lookupFS p l := by
  show (if q = p then some v else lookupFS p l) = lookupFS p l
  rw [if_neg hne]

theorem lookupFS_removeKey_self (k : String) :
    ∀ l : FS, lookupFS k (removeKey k l) = none := by
  intro l
  induction l with
  | nil => rfl
  | cons x xs ih =>
    rcases x with ⟨q, v⟩
    by_cases hq : q = k
    · simp [removeKey, hq, ih]
    · simp [removeKey, hq, lookupFS, ih]

theorem lookupFS_removeKey_ne {p k : String} (hne : p ≠ k) :
    ∀ l : FS, lookupFS p (removeKey k l) = lookupFS p l := by
  intro l
  induction l with
  | nil => rfl
  | cons x xs ih =>
    rcases x with ⟨q, v⟩
    by_cases hq : q = k
    · rw [show removeKey k ((q, v) :: xs) = removeKey k xs from by simp [removeKey, hq]]
      rw [ih, lookupFS_cons_ne (by rw [hq]; exact fun he => hne he.symm) v xs]
    · rw [show removeKey k ((q, v) :: xs) = (q, v) :: removeKey k xs from by
        simp [removeKey, hq]]
      by_cases hqp : q = p
      · subst hqp
        rw [lookupFS_head, lookupFS_head]
      · rw [lookupFS_cons_ne hqp, lookupFS_cons_ne hqp, ih]

theorem le_foldr_max :
    ∀ (l : List MoveRecord) (m : MoveRecord), m ∈ l →
      m.move_id ≤ l.foldr (fun r acc => max r.move_id acc) 0 := by
  intro l
  induction l with
  | nil => intro m hm; cases hm
  | cons x xs ih =>
    intro m hm
    rcases List.mem_cons.mp hm with he | he
    · rw [he]
      exact le_max_left _ _
    · exact le_trans (ih m he) (le_max_right _ _)

theorem nextId_gt (l : List MoveRecord) (m : MoveRecord) (hm : m ∈ l) :
    m.move_id < nextId l := by
  unfold nextId
  have := le_foldr_max l m hm
  omega

theorem find_fresh_aux (N : Nat) (rec : MoveRecord) (hrec : rec.move_id = N) :
    ∀ l : List MoveRecord, (∀ m ∈ l, m.move_id < N) →
      (l ++ [rec]).find? (fun m => m.move_id == N) = some rec := by
  intro l
  induction l with
  | nil =>
    intro _
    simp [List.find?, hrec]
  | cons x xs ih =>
    intro hall
    have hx : (x.move_id == N) = false :=
      beq_eq_false_iff_ne.mpr (Nat.ne_of_lt (hall x (List.mem_cons_self x xs)))
    rw [List.cons_append]
    rw [List.find?_cons_of_neg _ (by simp [hx])]
    exact ih (fun m hm => hall m (List.mem_cons_of_mem x hm))

theorem filter_fresh (l : List MoveRecord) (rec : MoveRecord) (hid : rec.move_id = nextId l) :
    (l ++ [rec]).filter (fun x => x.move_id != nextId l) = l := by
  rw [List.filter_append]
  have h1 : l.filter (fun x => x.move_id != nextId l) = l :=
    List.filter_eq_self.mpr (fun m hm =>
      bne_iff_ne.mpr (Nat.ne_of_lt (nextId_gt l m hm)))
  have h2 : [rec].filter (fun x => x.move_id != nextId l) = [] := by
    simp [List.filter, hid]
  rw [h1, h2, List.append_nil]

/-- Claim C5: relocating a file and then restoring its MoveRecord succeeds,
puts the file's content back at the original path, removes it from the
quarantine destination, and leaves the ledger exactly as it was before the
relocation, so the moved-files count returns to its prior value. -/
theorem relocate_restore_roundtrip
    (env env2 : String → String → Bool) (msub now : String) (st : PState)
    (fp : String) (v : Nat)
    (hv : lookupFS fp st.fs = some v)
    (henv : env fp (relocDest st msub fp) = true)
    (hne : relocDest st msub fp ≠ fp)
    (henv2 : env2 (relocDest st msub fp) fp = true) :
    (processOne env msub now st fp).moved_count = st.moved_count + 1
    ∧ (processOne env msub now st fp).moved.length = st.moved.length + 1
    ∧ (restoreOne env2 (processOne env msub now st fp).fs
        (processOne env msub now st fp).moved (nextId st.moved)).2.2 = true
    ∧ lookupFS fp (restoreOne env2 (processOne env msub now st fp).fs
        (processOne env msub now st fp).moved (nextId st.moved)).1 = some v
    ∧ lookupFS (relocDest st msub fp) (restoreOne env2 (processOne env msub now st fp).fs
        (processOne env msub now st fp).moved (nextId st.moved)).1 = none
    ∧ (restoreOne env2 (processOne env msub now st fp).fs
        (processOne env msub now st fp).moved (nextId st.moved)).2.1 = st.moved := by
  set dest := relocDest st msub fp with hdest
  have hmv : fsMove env st.fs fp dest
      = some ((dest, v) :: removeKey dest (removeKey fp st.fs)) := by
    unfold fsMove
    rw [hv]
    simp [henv]
  have hp1 : processOne env msub now st fp
      = { fs := (dest, v) :: removeKey dest (removeKey fp st.fs)
          files := st.files.filter (fun r => r.filepath != fp)
          moved := st.moved ++ [(⟨nextId st.moved, fp, dest, now⟩ : MoveRecord)]
          moved_count := st.moved_count + 1 } := by
    unfold processOne
    rw [← hdest, hmv]
  rw [hp1]
  have hfind : (st.moved ++ [(⟨nextId st.moved, fp, dest, now⟩ : MoveRecord)]).find?
      (fun m => m.move_id == nextId st.moved)
        = some ⟨nextId st.moved, fp, dest, now⟩ :=
    find_fresh_aux (nextId st.moved) _ rfl st.moved (fun m hm => nextId_gt st.moved m hm)
  have hmv2 : fsMove env2 ((dest, v) :: removeKey dest (removeKey fp st.fs)) dest fp
      = some ((fp, v) :: removeKey fp
          (removeKey dest ((dest, v) :: removeKey dest (removeKey fp st.fs)))) := by
    unfold fsMove
    rw [lookupFS_head]
    simp [henv2]
  have hre : restoreOne env2 ((dest, v) :: removeKey dest (removeKey fp st.fs))
      (st.moved ++ [(⟨nextId st.moved, fp, dest, now⟩ : MoveRecord)]) (nextId st.moved)
        = ((fp, v) :: removeKey fp
            (removeKey dest ((dest, v) :: removeKey dest (removeKey fp st.fs))),
           st.moved, true) := by
    unfold restoreOne
    rw [hfind]
    dsimp only
    rw [hmv2]
    dsimp only
    rw [filter_fresh st.moved _ rfl]
  refine ⟨rfl, by simp, ?_, ?_, ?_, ?_⟩
  · rw [hre]
  · rw [hre]
    exact lookupFS_head fp v _
  · rw [hre]
    show lookupFS dest ((fp, v) :: _) = none
    rw [lookupFS_cons_ne (fun he => hne he.symm)]
    rw [lookupFS_removeKey_ne hne]
    exact lookupFS_removeKey_self dest _
  · rw [hre]

/-- Witness for `relocate_restore_roundtrip` at a concrete state. -/
theorem relocate_restore_roundtrip_witness :
    lookupFS "/r/a.bin" (⟨[("/r/a.bin", 7)], [], [], 0⟩ : PState).fs = some 7
    ∧ envAll "/r/a.bin" (relocDest ⟨[("/r/a.bin", 7)], [], [], 0⟩ "/q" "/r/a.bin") = true
    ∧ relocDest ⟨[("/r/a.bin", 7)], [], [], 0⟩ "/q" "/r/a.bin" ≠ "/r/a.bin"
    ∧ ((processOne envAll "/q" "t0" ⟨[("/r/a.bin", 7)], [], [], 0⟩ "/r/a.bin").moved_count
        = (⟨[("/r/a.bin", 7)], [], [], 0⟩ : PState).moved_count + 1
      ∧ (processOne envAll "/q" "t0" ⟨[("/r/a.bin", 7)], [], [], 0⟩ "/r/a.bin").moved.length
        = (⟨[("/r/a.bin", 7)], [], [], 0⟩ : PState).moved.length + 1
      ∧ (restoreOne envAll
          (processOne envAll "/q" "t0" ⟨[("/r/a.bin", 7)], [], [], 0⟩ "/r/a.bin").fs
          (processOne envAll "/q" "t0" ⟨[("/r/a.bin", 7)], [], [], 0⟩ "/r/a.bin").moved
          (nextId (⟨[("/r/a.bin", 7)], [], [], 0⟩ : PState).moved)).2.2 = true
      ∧ lookupFS "/r/a.bin" (restoreOne envAll
          (processOne envAll "/q" "t0" ⟨[("/r/a.bin", 7)], [], [], 0⟩ "/r/a.bin").fs
          (processOne envAll "/q" "t0" ⟨[("/r/a.bin", 7)], [], [], 0⟩ "/r/a.bin").moved
          (nextId (⟨[("/r/a.bin", 7)], [], [], 0⟩ : PState).moved)).1 = some 7
      ∧ lookupFS (relocDest ⟨[("/r/a.bin", 7)], [], [], 0⟩ "/q" "/r/a.bin")
          (restoreOne envAll
            (processOne envAll "/q" "t0" ⟨[("/r/a.bin", 7)], [], [], 0⟩ "/r/a.bin").fs
            (processOne envAll "/q" "t0" ⟨[("/r/a.bin", 7)], [], [], 0⟩ "/r/a.bin").moved
            (nextId (⟨[("/r/a.bin", 7)], [], [], 0⟩ : PState).moved)).1 = none
      ∧ (restoreOne envAll
          (processOne envAll "/q" "t0" ⟨[("/r/a.bin", 7)], [], [], 0⟩ "/r/a.bin").fs
          (processOne envAll "/q" "t0" ⟨[("/r/a.bin", 7)], [], [], 0⟩ "/r/a.bin").moved
          (nextId (⟨[("/r/a.bin", 7)], [], [], 0⟩ : PState).moved)).2.1
        = (⟨[("/r/a.bin", 7)], [], [], 0⟩ : PState).moved) :=
  ⟨by decide, by decide, by decide,
    relocate_restore_roundtrip envAll envAll "/q" "t0" ⟨[("/r/a.bin", 7)], [], [], 0⟩
      "/r/a.bin" 7 (by decide) (by decide) (by decide) (by decide)⟩

/-! ### C7: restore-engine error handling -/

theorem lookupFS_removeKey_none {p k : String} {l : FS}
    (h : lookupFS p l = none) : lookupFS p (removeKey k l) = none := by
  by_cases hpk : p = k
  · rw [hpk]
    exact lookupFS_removeKey_self k l
  · rw [lookupFS_removeKey_ne hpk]
    exact h

theorem fsMove_some_env {env : String → String → Bool} {fs f2 : FS} {s d : String}
    (h : fsMove env fs s d = some f2) : env s d = true := by
  unfold fsMove at h
  rcases hl : lookupFS s fs with _ | v
  · rw [hl] at h
    cases h
  · rw [hl] at h
    rcases he : env s d
    · rw [he] at h
      simp at h
    · rfl

theorem fsMove_some_shape {env : String → String → Bool} {fs f2 : FS} {s d : String}
    (h : fsMove env fs s d = some f2) :
    ∃ v, lookupFS s fs = some v ∧ f2 = (d, v) :: removeKey d (removeKey s fs) := by
  unfold fsMove at h
  rcases hl : lookupFS s fs with _ | v
  · rw [hl] at h
    cases h
  · rw [hl] at h
    rcases he : env s d
    · rw [he] at h
      simp at h
    · rw [he] at h
      simp only [if_true] at h
      exact ⟨v, rfl, (Option.some.injEq _ _ ▸ h).symm⟩

theorem restoreOutcomes_length (env : String → String → Bool) :
    ∀ (todo : List MoveRecord) (fs : FS),
      (restoreOutcomes env fs todo).length = todo.length := by
  intro todo
  induction todo with
  | nil => intro fs; rfl
  | cons x rest ih =>
    intro fs
    rcases hmv : fsMove env fs x.moved_to_path x.original_filepath with _ | f2 <;>
      simp [restoreOutcomes, hmv, ih]

theorem filterSplitLen {α : Type} (p : α → Bool) :
    ∀ l : List α, (l.filter p).length + (l.filter (fun a => !p a)).length = l.length := by
  intro l
  induction l with
  | nil => rfl
  | cons x xs ih =>
    rcases hx : p x <;> simp [List.filter_cons, hx] <;> omega

theorem restoreAllGo_counts (env : String → String → Bool) :
    ∀ (todo : List MoveRecord) (fs : FS) (led : List MoveRecord),
      (restoreAllGo env fs led todo).2.2.1
          = ((restoreOutcomes env fs todo).filter (fun ob => ob.2)).length
      ∧ (restoreAllGo env fs led todo).2.2.2
          = ((restoreOutcomes env fs todo).filter (fun ob => !ob.2)).length := by
  intro todo
  induction todo with
  | nil => intro fs led; exact ⟨rfl, rfl⟩
  | cons m rest ih =>
    intro fs led
    rcases hmv : fsMove env fs m.moved_to_path m.original_filepath with _ | f2
    · obtain ⟨ih1, ih2⟩ := ih fs led
      constructor
      · simp [restoreAllGo, restoreOutcomes, hmv, List.filter_cons, ih1]
      · simp [restoreAllGo, restoreOutcomes, hmv, List.filter_cons, ih2]
    · obtain ⟨ih1, ih2⟩ := ih f2 (led.filter (fun x => x.move_id != m.move_id))
      constructor
      · simp [restoreAllGo, restoreOutcomes, hmv, List.filter_cons, ih1]
      · simp [restoreAllGo, restoreOutcomes, hmv, List.filter_cons, ih2]

theorem restoreAllGo_ledger (env : String → String → Bool) :
    ∀ (todo : List MoveRecord) (fs : FS) (led : List MoveRecord),
      (restoreAllGo env fs led todo).2.1
        = led.filter (fun m => decide (¬ m.move_id ∈ successIds env fs todo)) := by
  intro todo
  induction todo with
  | nil =>
    intro fs led
    symm
    apply List.filter_eq_self.mpr
    intro m _
    simp [successIds, restoreOutcomes]
  | cons m rest ih =>
    intro fs led
    rcases hmv : fsMove env fs m.moved_to_path m.original_filepath with _ | f2
    · have hs : successIds env fs (m :: rest) = successIds env fs rest := by
        simp [successIds, restoreOutcomes, hmv]
      simp only [restoreAllGo, hmv]
      rw [ih fs led, hs]
    · have hs : successIds env fs (m :: rest)
          = m.move_id :: successIds env f2 rest := by
        simp [successIds, restoreOutcomes, hmv]
      simp only [restoreAllGo, hmv]
      rw [ih f2 (led.filter (fun x => x.move_id != m.move_id)), hs]
      rw [List.filter_filter]
      apply List.filter_congr
      intro x _
      by_cases h1 : x.move_id = m.move_id
      · simp [h1]
      · by_cases h2 : x.move_id ∈ successIds env f2 rest
        · simp [h1, h2]
        · simp [h1, h2]

theorem mem_successIds {env : String → String → Bool} {fs : FS}
    {todo : List MoveRecord} {i : Nat} :
    i ∈ successIds env fs todo
      ↔ ∃ m, (m, true) ∈ restoreOutcomes env fs todo ∧ m.move_id = i := by
  unfold successIds
  rw [List.mem_filterMap]
  constructor
  · rintro ⟨⟨m, b⟩, hmem, hif⟩
    rcases b
    · simp at hif
    · simp only [if_true] at hif
      exact ⟨m, hmem, by simpa using hif⟩
  · rintro ⟨m, hmem, hid⟩
    exact ⟨(m, true), hmem, by simp [hid]⟩

theorem restoreOutcomes_fst {env : String → String → Bool} :
    ∀ (todo : List MoveRecord) (fs : FS) (m : MoveRecord) (b : Bool),
      (m, b) ∈ restoreOutcomes env fs todo → m ∈ todo := by
  intro todo
  induction todo with
  | nil => intro fs m b h; cases h
  | cons x rest ih =>
    intro fs m b h
    rcases hmv : fsMove env fs x.moved_to_path x.original_filepath with _ | f2
    · rw [show restoreOutcomes env fs (x :: rest) = (x, false) :: restoreOutcomes env fs rest
          from by simp [restoreOutcomes, hmv]] at h
      rcases List.mem_cons.mp h with he | he
      · have hm := congrArg Prod.fst he
        simp at hm
        rw [hm]
        exact List.mem_cons_self x rest
      · exact List.mem_cons_of_mem x (ih fs m b he)
    · rw [show restoreOutcomes env fs (x :: rest) = (x, true) :: restoreOutcomes env f2 rest
          from by simp [restoreOutcomes, hmv]] at h
      rcases List.mem_cons.mp h with he | he
      · have hm := congrArg Prod.fst he
        simp at hm
        rw [hm]
        exact List.mem_cons_self x rest
      · exact List.mem_cons_of_mem x (ih f2 m b he)

theorem outcome_true_env {env : String → String → Bool} :
    ∀ (todo : List MoveRecord) (fs : FS) (m : MoveRecord),
      (m, true) ∈ restoreOutcomes env fs todo →
      env m.moved_to_path m.original_filepath = true := by
  intro todo
  induction todo with
  | nil => intro fs m h; cases h
  | cons x rest ih =>
    intro fs m h
    rcases hmv : fsMove env fs x.moved_to_path x.original_filepath with _ | f2
    · rw [show restoreOutcomes env fs (x :: rest) = (x, false) :: restoreOutcomes env fs rest
          from by simp [restoreOutcomes, hmv]] at h
      rcases List.mem_cons.mp h with he | he
      · have hb := congrArg Prod.snd he
        simp at hb
      · exact ih fs m he
    · rw [show restoreOutcomes env fs (x :: rest) = (x, true) :: restoreOutcomes env f2 rest
          from by simp [restoreOutcomes, hmv]] at h
      rcases List.mem_cons.mp h with he | he
      · have hm := congrArg Prod.fst he
        simp at hm
        rw [hm]
        exact fsMove_some_env hmv
      · exact ih f2 m he

theorem kept_of_env_false (env : String → String → Bool) (todo : List MoveRecord)
    (fs : FS) (led : List MoveRecord) (m : MoveRecord) (hm : m ∈ led)
    (hfail : ∀ m' ∈ todo, m'.move_id = m.move_id →
      env m'.moved_to_path m'.original_filepath = false) :
    m ∈ (restoreAllGo env fs led todo).2.1 := by
  rw [restoreAllGo_ledger env todo fs led]
  apply List.mem_filter.mpr
  refine ⟨hm, ?_⟩
  simp only [decide_eq_true_eq]
  intro hmem
  rcases mem_successIds.mp hmem with ⟨m', hout, hid⟩
  have hm't : m' ∈ todo := restoreOutcomes_fst todo fs m' true hout
  have henv := outcome_true_env todo fs m' hout
  rw [hfail m' hm't hid] at henv
  cases henv

theorem kept_of_missing (env : String → String → Bool) :
    ∀ (todo : List MoveRecord) (fs : FS) (led : List MoveRecord) (m : MoveRecord),
      m ∈ led → lookupFS m.moved_to_path fs = none →
      (∀ m' ∈ todo, m'.original_filepath ≠ m.moved_to_path) →
      (∀ m' ∈ todo, m'.move_id = m.move_id → m' = m) →
      m ∈ (restoreAllGo env fs led todo).2.1 := by
  intro todo
  induction todo with
  | nil => intro fs led m hm _ _ _; exact hm
  | cons x rest ih =>
    intro fs led m hm hmiss horig hid
    by_cases hxm : x = m
    · have hmv : fsMove env fs x.moved_to_path x.original_filepath = none := by
        unfold fsMove
        rw [hxm, hmiss]
      simp only [restoreAllGo, hmv]
      exact ih fs led m hm hmiss (fun m' h => horig m' (List.mem_cons_of_mem x h))
        (fun m' h hi => hid m' (List.mem_cons_of_mem x h) hi)
    · rcases hmv : fsMove env fs x.moved_to_path x.original_filepath with _ | f2
      · simp only [restoreAllGo, hmv]
        exact ih fs led m hm hmiss (fun m' h => horig m' (List.mem_cons_of_mem x h))
          (fun m' h hi => hid m' (List.mem_cons_of_mem x h) hi)
      · simp only [restoreAllGo, hmv]
        obtain ⟨v, hl, hshape⟩ := fsMove_some_shape hmv
        have hf2 : lookupFS m.moved_to_path f2 = none := by
          rw [hshape]
          rw [lookupFS_cons_ne (horig x (List.mem_cons_self x rest))]
          exact lookupFS_removeKey_none (lookupFS_removeKey_none hmiss)
        have hmled : m ∈ led.filter (fun y => y.move_id != x.move_id) := by
          apply List.mem_filter.mpr
          refine ⟨hm, bne_iff_ne.mpr ?_⟩
          intro hcon
          exact hxm (hid x (List.mem_cons_self x rest) hcon.symm)
        exact ih f2 _ m hmled hf2 (fun m' h => horig m' (List.mem_cons_of_mem x h))
          (fun m' h hi => hid m' (List.mem_cons_of_mem x h) hi)

theorem dropped_iff_success (env : String → String → Bool) (fs : FS)
    (moved : List MoveRecord) (hnd : (moved.map (fun m => m.move_id)).Nodup)
    (m : MoveRecord) (hm : m ∈ moved) :
    (m ∉ (restore_all env fs moved).2.1) ↔ (m, true) ∈ restoreOutcomes env fs moved := by
  unfold restore_all
  rw [restoreAllGo_ledger env moved fs moved]
  constructor
  · intro hnot
    by_cases hsid : m.move_id ∈ successIds env fs moved
    · rcases mem_successIds.mp hsid with ⟨m', hout, hid⟩
      have hmm : m' = m :=
        List.inj_on_of_nodup_map hnd (restoreOutcomes_fst moved fs m' true hout) hm hid
      rw [hmm] at hout
      exact hout
    · exact absurd (List.mem_filter.mpr ⟨hm, by simp [hsid]⟩) hnot
  · intro hout hmem
    have hsid : m.move_id ∈ successIds env fs moved := mem_successIds.mpr ⟨m, hout, rfl⟩
    have := (List.mem_filter.mp hmem).2
    simp [hsid] at this

/-- Claim C7: `restore_all_moved_files` processes every snapshot record
(restored + errors = total, errors counting exactly the failed reverse
moves); a record whose reverse move the environment fails stays in the
ledger; a record whose destination file is missing (and which no other
record's original path could recreate) stays in the ledger; and a record
leaves the ledger exactly when its reverse move succeeded at its turn. -/
theorem restore_all_error_handling (env : String → String → Bool) (fs : FS)
    (moved : List MoveRecord) (hnd : (moved.map (fun m => m.move_id)).Nodup) :
    (restore_all env fs moved).2.2.1 + (restore_all env fs moved).2.2.2 = moved.length
    ∧ (restore_all env fs moved).2.2.2
        = ((restoreOutcomes env fs moved).filter (fun ob => !ob.2)).length
    ∧ (∀ m ∈ moved, env m.moved_to_path m.original_filepath = false →
        m ∈ (restore_all env fs moved).2.1)
    ∧ (∀ m ∈ moved, lookupFS m.moved_to_path fs = none →
        (∀ m' ∈ moved, m'.original_filepath ≠ m.moved_to_path) →
        m ∈ (restore_all env fs moved).2.1)
    ∧ (∀ m ∈ moved,
        (m ∉ (restore_all env fs moved).2.1 ↔ (m, true) ∈ restoreOutcomes env fs moved)) := by
  obtain ⟨hc1, hc2⟩ := restoreAllGo_counts env moved fs moved
  refine ⟨?_, hc2, ?_, ?_, ?_⟩
  · show (restoreAllGo env fs moved moved).2.2.1
        + (restoreAllGo env fs moved moved).2.2.2 = moved.length
    rw [hc1, hc2, filterSplitLen, restoreOutcomes_length]
  · intro m hm henv
    apply kept_of_env_false env moved fs moved m hm
    intro m' hm' hid
    have : m' = m := List.inj_on_of_nodup_map hnd hm' hm hid
    rw [this]
    exact henv
  · intro m hm hmiss horig
    apply kept_of_missing env moved fs moved m hm hmiss horig
    intro m' hm' hid
    exact List.inj_on_of_nodup_map hnd hm' hm hid
  · intro m hm
    exact dropped_iff_success env fs moved hnd m hm

/-- Witness for `restore_all_error_handling` at a concrete ledger. -/
theorem restore_all_error_handling_witness :
    (wLedger.map (fun m => m.move_id)).Nodup
    ∧ ((restore_all envNone [] wLedger).2.2.1 + (restore_all envNone [] wLedger).2.2.2
          = wLedger.length
      ∧ (restore_all envNone [] wLedger).2.2.2
          = ((restoreOutcomes envNone [] wLedger).filter (fun ob => !ob.2)).length
      ∧ (∀ m ∈ wLedger, envNone m.moved_to_path m.original_filepath = false →
          m ∈ (restore_all envNone [] wLedger).2.1)
      ∧ (∀ m ∈ wLedger, lookupFS m.moved_to_path [] = none →
          (∀ m' ∈ wLedger, m'.original_filepath ≠ m.moved_to_path) →
          m ∈ (restore_all envNone [] wLedger).2.1)
      ∧ (∀ m ∈ wLedger, (m ∉ (restore_all envNone [] wLedger).2.1
          ↔ (m, true) ∈ restoreOutcomes envNone [] wLedger))) :=
  ⟨by decide, restore_all_error_handling envNone [] wLedger (by decide)⟩

/-! ### C6: a failed move is skipped, the batch continues -/

/-- Claim C6 (behaviour at the failing input): in a three-member group
whose keeper is "/r/a.bin", when the environment fails the move of
"/r/bb.bin", `process_duplicates` leaves that file at its original path
with its FileRecord intact and no ledger entry, and continues with the
next candidate, which is moved and counted; the only count the function
maintains is `moved_count` — the code keeps no error counter and returns
nothing to its caller (it only prints). -/
theorem relocator_failure_keeps_file_and_record :
    (process_duplicates envBlockB "/q" "t0" "/r" failSt).moved_count = 1
    ∧ lookupFS "/r/bb.bin" (process_duplicates envBlockB "/q" "t0" "/r" failSt).fs = some 10
    ∧ (⟨"/r/bb.bin", "bb.bin", "h1", "bb", 0, "", "", "bin", true⟩ : FileRecord)
        ∈ (process_duplicates envBlockB "/q" "t0" "/r" failSt).files
    ∧ (∀ m ∈ (process_duplicates envBlockB "/q" "t0" "/r" failSt).moved,
        m.original_filepath ≠ "/r/bb.bin")
    ∧ lookupFS "/q/cc.bin" (process_duplicates envBlockB "/q" "t0" "/r" failSt).fs = some 10
    ∧ lookupFS "/r/cc.bin" (process_duplicates envBlockB "/q" "t0" "/r" failSt).fs = none
    ∧ (process_duplicates envBlockB "/q" "t0" "/r" failSt).moved.length = 1
    ∧ lookupFS "/r/a.bin" (process_duplicates envBlockB "/q" "t0" "/r" failSt).fs = some 10 := by
  refine ⟨by decide, by decide, by decide, by decide, by decide, by decide, by decide,
    by decide⟩

/-! ### C10: root scoping is a string-prefix match -/

theorem charPrefixTrans :
    ∀ (a b c : List Char), a.isPrefixOf b = true → b.isPrefixOf c = true →
      a.isPrefixOf c = true := by
  intro a
  induction a with
  | nil => intro b c _ _; cases c <;> rfl
  | cons x xs ih =>
    intro b c hab hbc
    cases b with
    | nil => simp [List.isPrefixOf] at hab
    | cons y ys =>
      cases c with
      | nil => simp [List.isPrefixOf] at hbc
      | cons z zs =>
        simp only [List.isPrefixOf, Bool.and_eq_true, beq_iff_eq] at hab hbc ⊢
        obtain ⟨hxy, hab2⟩ := hab
        obtain ⟨hyz, hbc2⟩ := hbc
        exact ⟨hxy.trans hyz, ih ys zs hab2 hbc2⟩

/-- Claim C10: every store operation scopes records by a string-prefix
test on the path, not a directory-tree test, so a record whose path lies
under a longer sibling root (for example "/data/roms2" while "/data/roms"
is scanned) is in scope for the Classifier (its flag is recomputed), for
the rescan reconciliation (it is listed, and listed for removal when the
walk of the scanned root does not produce it), and for the Resolution
Engine's member query. -/
theorem scope_is_prefix_match (root1 root2 : String) (db : List FileRecord)
    (r : FileRecord) (cur : List String) (hr : r ∈ db)
    (h12 : root1.data.isPrefixOf root2.data = true)
    (h2r : underRoot root2 r.filepath = true) :
    underRoot root1 r.filepath = true
    ∧ r.filepath ∈ dbFilesUnder root1 db
    ∧ (cur.any (fun q => q == r.filepath) = false →
        r.filepath ∈ filesToRemove root1 db cur)
    ∧ toGroupRow r ∈ membersOf root1 db r.md5
    ∧ { r with is_potential_duplicate := markFlag root1 db r } ∈ mark_duplicates root1 db := by
  have hu : underRoot root1 r.filepath = true :=
    charPrefixTrans root1.data root2.data r.filepath.data h12 h2r
  refine ⟨hu, ?_, ?_, ?_, ?_⟩
  · exact List.mem_map_of_mem _ (List.mem_filter.mpr ⟨hr, hu⟩)
  · intro hcur
    apply List.mem_filter.mpr
    exact ⟨List.mem_map_of_mem _ (List.mem_filter.mpr ⟨hr, hu⟩), by simp [hcur]⟩
  · exact List.mem_map_of_mem _ (List.mem_filter.mpr ⟨hr, by simp [hu]⟩)
  · rw [mark_duplicates_eq_map]
    exact List.mem_map_of_mem _ hr

/-- Witness for `scope_is_prefix_match`: a record under "/data/roms2" is
inside the scope of every operation run against "/data/roms", although it
is outside that root's directory tree. -/
theorem scope_is_prefix_match_witness :
    (⟨"/data/roms2/game.bin", "game.bin", "hg", "game", 0, "", "", "bin", true⟩ : FileRecord)
        ∈ sibDb
    ∧ ("/data/roms" : String).data.isPrefixOf ("/data/roms2" : String).data = true
    ∧ underRoot "/data/roms2" "/data/roms2/game.bin" = true
    ∧ ("/data/roms/" : String).data.isPrefixOf ("/data/roms2/game.bin" : String).data = false
    ∧ (underRoot "/data/roms" "/data/roms2/game.bin" = true
      ∧ "/data/roms2/game.bin" ∈ dbFilesUnder "/data/roms" sibDb
      ∧ (["/data/roms/game.bin"].any (fun q => q == "/data/roms2/game.bin") = false →
          "/data/roms2/game.bin" ∈ filesToRemove "/data/roms" sibDb ["/data/roms/game.bin"])
      ∧ toGroupRow (⟨"/data/roms2/game.bin", "game.bin", "hg", "game", 0, "", "", "bin",
          true⟩ : FileRecord) ∈ membersOf "/data/roms" sibDb "hg"
      ∧ { (⟨"/data/roms2/game.bin", "game.bin", "hg", "game", 0, "", "", "bin",
            true⟩ : FileRecord) with
          is_potential_duplicate := markFlag "/data/roms" sibDb
            ⟨"/data/roms2/game.bin", "game.bin", "hg", "game", 0, "", "", "bin", true⟩ }
        ∈ mark_duplicates "/data/roms" sibDb) :=
  ⟨by decide, by decide, by decide, by decide,
    scope_is_prefix_match "/data/roms" "/data/roms2" sibDb
      ⟨"/data/roms2/game.bin", "game.bin", "hg", "game", 0, "", "", "bin", true⟩
      ["/data/roms/game.bin"] (by decide) (by decide) (by decide)⟩
